import Mathlib

/-!
# Verification of the protobuf3 wire-format codec

This file gives a shallow embedding, in Lean 4, of the decoding core of the
protobuf3 serialization library (varint primitives, the packed-sequence
count-ahead helpers, the struct-decoding driver with its incremental
property search, and the property-table builder with its plan cache), and
proves or refutes the frozen specification claims about them.

Bytes are modelled as natural numbers (< 256 where it matters); 64-bit
unsigned machine arithmetic is modelled on `Nat` with explicit `% 2 ^ 64`
at the operations where Go's `uint64` can wrap.
-/

namespace Protobuf3

/-- Wire-level errors of the library (`io.ErrUnexpectedEOF`, `errOverflow`,
and the various `fmt.Errorf` cases that the decode driver can produce). -/
inductive PErr
  | unexpectedEOF     -- io.ErrUnexpectedEOF
  | overflow          -- errOverflow
  | badLength         -- "bad byte length %d" / "bad skip length %d"
  | illegalTag        -- "illegal tag %d"
  | unknownWireType   -- "can't skip unknown wiretype %v"
  | badWireType       -- "bad wiretype for field ...: got %v, wanted %v"
  | errNil            -- ErrNil
  | errNotPointerToStruct -- ErrNotPointerToStruct
  | fuelExhausted     -- artifact of the embedding; proved unreachable where used
  | typeMismatch      -- artifact of the embedding: mistyped record state (excluded by WellTyped)
  deriving DecidableEq, Repr

/-- The reading half of the Go `Buffer`: the byte stream and the read cursor.
(`buf []byte` and `index int` of the source `Buffer` struct.) -/
structure Buffer where
  buf : List Nat
  index : Nat
  deriving DecidableEq, Repr

/-- Result of a varint decode: the value, the error (`none` on success),
and the final value of `p.index`. -/
structure VarintOut where
  x : Nat
  err : Option PErr
  index : Nat
  deriving DecidableEq, Repr

/-- Go's `x &^ y` (AND NOT) on our `Nat` model of `uint64`: keep the bits of
`x` that are not set in `y`. -/
def andNot (x y : Nat) : Nat := x ^^^ (x &&& y)

/-- `buf[i]`: read one byte of the buffer. In Go this is always guarded by a
bounds check; out of range it returns 0 here. -/
def byteAt (buf : List Nat) (i : Nat) : Nat := buf.getD i 0

/-- The loop of `decodeVarintSlow`:
`for shift := uint(0); shift < 64; shift += 7 { ... }`.
`i0` is the entry value of `p.index` (the cursor is only written in the
`b < 0x80` branch of the source, so on the other exits it keeps `i0`). -/
def slowLoop (buf : List Nat) (i0 i x shift : Nat) : VarintOut :=
  if _h : shift < 64 then
    if i ≥ buf.length then
      ⟨x, some .unexpectedEOF, i0⟩
    else
      let b := byteAt buf i
      let x' := x ||| (((b &&& 0x7F) <<< shift) % 2 ^ 64)
      if b < 0x80 then
        -- p.index = i+1; the 10th byte can't have any non-zero unused bits
        if shift = 9 * 7 ∧ b &&& 0xfe ≠ 0 then
          ⟨x', some .overflow, i + 1⟩
        else
          ⟨x', none, i + 1⟩
      else
        slowLoop buf i0 (i + 1) x' (shift + 7)
  else
    -- the number is too large to represent in a 64-bit value
    ⟨x, some .overflow, i0⟩
termination_by 64 - shift

/-- `(*Buffer).decodeVarintSlow`, the bounds-checking varint decoder. -/
def decodeVarintSlowGo (p : Buffer) : VarintOut :=
  slowLoop p.buf p.index p.index 0 0

/-- One unrolled continuation block of the `DecodeVarint` fast path at shift
`s` (7, 14, ..., 56):
`b = buf[i]; i++; x |= uint64(b) << s; if b < 0x80 goto done; x &^= 0x80 << s`.
Returns `.inl out` when the block hit `done` and `.inr (i', x')` when the
continuation bit was set and decoding proceeds to the next block. -/
def fastBlock (buf : List Nat) (i x s : Nat) : VarintOut ⊕ (Nat × Nat) :=
  let b := byteAt buf i
  let x := x ||| ((b <<< s) % 2 ^ 64)
  if b < 0x80 then .inl ⟨x, none, i + 1⟩
  else .inr (i + 1, andNot x ((0x80 <<< s) % 2 ^ 64))

/-- `(*Buffer).DecodeVarint`, the fast-path varint decoder: the one-byte case
is decoded inline; with at least 9 further bytes known to remain the 10-byte
unrolled chain runs without per-byte bounds checks; otherwise it falls back
to `decodeVarintSlow`. -/
def DecodeVarintGo (p : Buffer) : VarintOut :=
  let i0 := p.index
  let buf := p.buf
  let n := buf.length
  if i0 ≥ n then ⟨0, some .unexpectedEOF, i0⟩ else
  -- most varints are 1 byte
  let x := byteAt buf i0
  let i := i0 + 1
  if x < 0x80 then ⟨x, none, i⟩ else
  if i + 9 > n then decodeVarintSlowGo p else
  let x := andNot x 0x80
  match fastBlock buf i x 7 with
  | .inl out => out
  | .inr (i, x) =>
  match fastBlock buf i x 14 with
  | .inl out => out
  | .inr (i, x) =>
  match fastBlock buf i x 21 with
  | .inl out => out
  | .inr (i, x) =>
  match fastBlock buf i x 28 with
  | .inl out => out
  | .inr (i, x) =>
  match fastBlock buf i x 35 with
  | .inl out => out
  | .inr (i, x) =>
  match fastBlock buf i x 42 with
  | .inl out => out
  | .inr (i, x) =>
  match fastBlock buf i x 49 with
  | .inl out => out
  | .inr (i, x) =>
  match fastBlock buf i x 56 with
  | .inl out => out
  | .inr (i, x) =>
  -- the final (10th) byte: `x |= uint64(b) << 63; if b < 2 goto done`
  let b := byteAt buf i
  let x := x ||| ((b <<< 63) % 2 ^ 64)
  if b < 2 then ⟨x, none, i + 1⟩
  else ⟨0, some .overflow, i0⟩

/-- Number of consecutive continuation bytes (high bit set) starting at
position `i` of the buffer; stops at the end of the buffer. -/
def contCount (buf : List Nat) (i : Nat) : Nat :=
  if _h : i < buf.length then
    if 0x80 ≤ byteAt buf i then contCount buf (i + 1) + 1 else 0
  else 0
termination_by buf.length - i

/-! ## Arithmetic facts about the byte-level operations -/

lemma testBit_andNot (x y j : Nat) :
    (andNot x y).testBit j = (x.testBit j && !(y.testBit j)) := by
  simp only [andNot, Nat.testBit_xor, Nat.testBit_land]
  cases hx : x.testBit j <;> cases hy : y.testBit j <;> simp

lemma land_127_eq_mod (b : Nat) : b &&& 127 = b % 128 := by
  have h := Nat.and_pow_two_sub_one_eq_mod b 7
  norm_num at h
  exact h

lemma land_127_of_lt {b : Nat} (hb : b < 128) : b &&& 127 = b := by
  rw [land_127_eq_mod, Nat.mod_eq_of_lt hb]

lemma testBit_byte_high {b k : Nat} (hb : b < 256) (hk : 8 ≤ k) : b.testBit k = false := by
  apply Nat.testBit_eq_false_of_lt
  calc b < 256 := hb
    _ = 2 ^ 8 := by norm_num
    _ ≤ 2 ^ k := Nat.pow_le_pow_right (by norm_num) hk

lemma testBit_128 (k : Nat) : (128 : Nat).testBit k = decide (7 = k) := by
  have h : (128 : Nat) = 2 ^ 7 := by norm_num
  rw [h, Nat.testBit_two_pow]

lemma testBit_127 (k : Nat) : (127 : Nat).testBit k = decide (k < 7) := by
  have h : (127 : Nat) = 2 ^ 7 - 1 := by norm_num
  rw [h, Nat.testBit_two_pow_sub_one]

/-- For a byte, `b &^ 0x80` just keeps the low 7 bits. -/
lemma ldiff_byte_128 {b : Nat} (hb : b < 256) : andNot b 128 = b &&& 127 := by
  apply Nat.eq_of_testBit_eq
  intro j
  simp only [testBit_andNot, Nat.testBit_land, testBit_128, testBit_127]
  rcases Nat.lt_trichotomy j 7 with hj | hj | hj
  · have h1 : ¬ (7 = j) := by omega
    simp [h1, hj]
  · subst hj
    simp
  · have h1 : ¬ (7 = j) := by omega
    have h2 : ¬ (j < 7) := by omega
    have h3 : b.testBit j = false := testBit_byte_high hb (by omega)
    simp [h1, h2, h3]

/-- The fast path's `x |= uint64(b) << s` followed by `x &^= 0x80 << s` equals
the slow path's `x |= (uint64(b) & 0x7F) << s`, provided the bits of `x`
below position `s` are the only ones set. -/
lemma clear_cont_bit {x b s : Nat} (hx : x < 2 ^ s) (hb : b < 256) (hs : s + 7 ≤ 63) :
    andNot (x ||| ((b <<< s) % 2 ^ 64)) ((128 <<< s) % 2 ^ 64)
      = x ||| (((b &&& 127) <<< s) % 2 ^ 64) := by
  apply Nat.eq_of_testBit_eq
  intro j
  simp only [testBit_andNot, Nat.testBit_lor, Nat.testBit_mod_two_pow,
    Nat.testBit_shiftLeft, Nat.testBit_land, testBit_128, testBit_127]
  rcases Nat.lt_or_ge j s with hj | hj
  · have h1 : ¬ (j ≥ s) := by omega
    simp [h1]
  · have hxj : x.testBit j = false :=
      Nat.testBit_eq_false_of_lt (lt_of_lt_of_le hx (Nat.pow_le_pow_right (by norm_num) hj))
    rcases Nat.lt_trichotomy (j - s) 7 with hk | hk | hk
    · have h7 : ¬ (7 = j - s) := by omega
      have hj64 : j < 64 := by omega
      simp [hj, hxj, h7, hk, hj64]
    · have hj64 : j < 64 := by omega
      have h7 : ¬ (j - s < 7) := by omega
      simp [hj, hxj, ← hk, hj64, h7]
    · have h7 : ¬ (7 = j - s) := by omega
      have h72 : ¬ (j - s < 7) := by omega
      have hbj : b.testBit (j - s) = false := testBit_byte_high hb (by omega)
      simp [hj, hxj, h7, h72, hbj]

/-- The 7-bits-at-a-time accumulator stays below the next bit position. -/
lemma acc_lt {x b s : Nat} (hx : x < 2 ^ s) :
    x ||| (((b &&& 127) <<< s) % 2 ^ 64) < 2 ^ (s + 7) := by
  apply Nat.or_lt_two_pow
  · exact lt_of_lt_of_le hx (Nat.pow_le_pow_right (by norm_num) (by omega))
  · apply lt_of_le_of_lt (Nat.mod_le _ _)
    rw [Nat.shiftLeft_eq, land_127_eq_mod]
    have h1 : b % 128 < 128 := Nat.mod_lt _ (by norm_num)
    calc b % 128 * 2 ^ s < 128 * 2 ^ s := Nat.mul_lt_mul_of_pos_right h1 (by positivity)
      _ = 2 ^ (s + 7) := by rw [pow_add]; ring

lemma byteAt_lt {buf : List Nat} (hb : ∀ b ∈ buf, b < 256) (i : Nat) :
    byteAt buf i < 256 := by
  unfold byteAt
  by_cases h : i < buf.length
  · rw [List.getD_eq_getElem buf 0 h]
    exact hb _ (List.getElem_mem h)
  · rw [List.getD_eq_default buf 0 (by omega)]
    norm_num

/-! ## Unfolding lemmas for the slow loop -/

lemma slowLoop_step {buf : List Nat} (i0 i x s : Nat) (h64 : s < 64) (hi : i < buf.length) :
    slowLoop buf i0 i x s =
      (let b := byteAt buf i
       let x' := x ||| (((b &&& 127) <<< s) % 2 ^ 64)
       if b < 128 then
         if s = 63 ∧ b &&& 0xfe ≠ 0 then ⟨x', some .overflow, i + 1⟩
         else ⟨x', none, i + 1⟩
       else slowLoop buf i0 (i + 1) x' (s + 7)) := by
  rw [slowLoop]
  have h1 : ¬ (i ≥ buf.length) := by omega
  simp only [h64, dif_pos, h1, if_false, ite_false]

lemma slowLoop_eof {buf : List Nat} (i0 i x s : Nat) (h64 : s < 64) (hi : ¬ i < buf.length) :
    slowLoop buf i0 i x s = ⟨x, some .unexpectedEOF, i0⟩ := by
  rw [slowLoop]
  have h1 : i ≥ buf.length := by omega
  simp [h64, h1]

lemma slowLoop_exhaust {buf : List Nat} (i0 i x s : Nat) (h64 : ¬ s < 64) :
    slowLoop buf i0 i x s = ⟨x, some .overflow, i0⟩ := by
  rw [slowLoop]
  simp [h64]

lemma land_254_eq_zero_iff {b : Nat} (hb : b < 256) : b &&& 254 = 0 ↔ b < 2 := by
  interval_cases b <;> decide

/-- One aligned step of the fast-path chain against the slow loop, at shift
`s` (one of 7, 14, ..., 56): on a terminator byte both produce the same
output; on a continuation byte both step to the same accumulator. -/
lemma chain_step {buf : List Nat} (hb : ∀ b ∈ buf, b < 256) (i0 i x s : Nat)
    (hi : i < buf.length) (hx : x < 2 ^ s) (hs2 : s + 7 ≤ 63) :
    (byteAt buf i < 128 →
        fastBlock buf i x s = .inl ⟨x ||| (((byteAt buf i &&& 127) <<< s) % 2 ^ 64), none, i + 1⟩
        ∧ slowLoop buf i0 i x s =
            ⟨x ||| (((byteAt buf i &&& 127) <<< s) % 2 ^ 64), none, i + 1⟩) ∧
    (128 ≤ byteAt buf i →
        fastBlock buf i x s =
          .inr (i + 1, x ||| (((byteAt buf i &&& 127) <<< s) % 2 ^ 64))
        ∧ slowLoop buf i0 i x s =
            slowLoop buf i0 (i + 1) (x ||| (((byteAt buf i &&& 127) <<< s) % 2 ^ 64)) (s + 7)) := by
  constructor
  · intro hlt
    constructor
    · unfold fastBlock
      simp only [hlt, if_pos]
      rw [land_127_of_lt hlt]
    · rw [slowLoop_step i0 i x s (by omega) hi]
      have h63 : ¬ (s = 63 ∧ byteAt buf i &&& 0xfe ≠ 0) := by
        rintro ⟨h1, _⟩; omega
      simp only [hlt, if_pos, h63, if_neg, ite_false]
  · intro hge
    have hb256 := byteAt_lt hb i
    have hnlt : ¬ (byteAt buf i < 128) := by omega
    constructor
    · unfold fastBlock
      simp only [hnlt, ite_false]
      rw [clear_cont_bit hx hb256 hs2]
    · rw [slowLoop_step i0 i x s (by omega) hi]
      simp only [hnlt, ite_false]

/-- Relation between the fast-path `DecodeVarint` and the bounds-checking
`decodeVarintSlow`: they always agree on the error, and whenever the error
is not `overflow` they agree on everything (value, error, final cursor). -/
theorem fastSlow_rel (p : Buffer) (hb : ∀ b ∈ p.buf, b < 256) :
    (DecodeVarintGo p).err = (decodeVarintSlowGo p).err ∧
    ((DecodeVarintGo p).err ≠ some PErr.overflow → DecodeVarintGo p = decodeVarintSlowGo p) := by
  obtain ⟨buf, i0⟩ := p
  have hb' : ∀ b ∈ buf, b < 256 := hb
  by_cases hA : i0 ≥ buf.length
  · have hfast : DecodeVarintGo ⟨buf, i0⟩ = ⟨0, some .unexpectedEOF, i0⟩ := by
      rw [DecodeVarintGo]; simp [hA]
    have hslow : decodeVarintSlowGo ⟨buf, i0⟩ = ⟨0, some .unexpectedEOF, i0⟩ := by
      show slowLoop buf i0 i0 0 0 = _
      exact slowLoop_eof i0 i0 0 0 (by norm_num) (by omega)
    rw [hfast, hslow]
    exact ⟨rfl, fun _ => rfl⟩
  · have hi0 : i0 < buf.length := by omega
    have hb0 := byteAt_lt hb' i0
    by_cases hB : byteAt buf i0 < 128
    · have hfast : DecodeVarintGo ⟨buf, i0⟩ = ⟨byteAt buf i0, none, i0 + 1⟩ := by
        rw [DecodeVarintGo]; simp [hA, hB]
      have hslow : decodeVarintSlowGo ⟨buf, i0⟩ = ⟨byteAt buf i0, none, i0 + 1⟩ := by
        show slowLoop buf i0 i0 0 0 = _
        rw [slowLoop_step i0 i0 0 0 (by norm_num) hi0]
        have h63 : ¬ ((0 : Nat) = 63 ∧ byteAt buf i0 &&& 0xfe ≠ 0) := by
          rintro ⟨h1, _⟩; omega
        have hv : (0 : Nat) ||| (((byteAt buf i0 &&& 127) <<< 0) % 2 ^ 64) = byteAt buf i0 := by
          rw [Nat.shiftLeft_zero,
            Nat.mod_eq_of_lt (show byteAt buf i0 &&& 127 < 2 ^ 64 by
              rw [land_127_eq_mod]; omega),
            land_127_of_lt hB]
          simp
        simp only [hB, if_pos, h63, if_neg, ite_false, hv]
      rw [hfast, hslow]
      exact ⟨rfl, fun _ => rfl⟩
    · by_cases hC : i0 + 1 + 9 > buf.length
      · have hfast : DecodeVarintGo ⟨buf, i0⟩ = decodeVarintSlowGo ⟨buf, i0⟩ := by
          rw [DecodeVarintGo]; simp [hA, hB, hC]
        rw [hfast]
        exact ⟨rfl, fun _ => rfl⟩
      · -- at least 10 bytes remain: the unrolled fast chain runs; walk it in
        -- lockstep with the slow loop, one byte at a time
        have hC10 : i0 + 10 ≤ buf.length := by omega
        simp only [DecodeVarintGo, hA, hB, hC, ite_false, ite_true, if_false, if_true]
        rw [show decodeVarintSlowGo ⟨buf, i0⟩ = slowLoop buf i0 i0 0 0 from rfl]
        have hstep1 : slowLoop buf i0 i0 0 0
            = slowLoop buf i0 (i0 + 1) (andNot (byteAt buf i0) 128) 7 := by
          rw [slowLoop_step i0 i0 0 0 (by norm_num) hi0]
          have e2 : (0 : Nat) ||| (((byteAt buf i0 &&& 127) <<< 0) % 2 ^ 64)
              = byteAt buf i0 &&& 127 := by
            rw [Nat.shiftLeft_zero,
              Nat.mod_eq_of_lt (show byteAt buf i0 &&& 127 < 2 ^ 64 by
                rw [land_127_eq_mod]; omega)]
            simp
          simp only [hB, ite_false, if_false, e2, ldiff_byte_128 hb0]
        rw [hstep1]
        have hinv1 : andNot (byteAt buf i0) 128 < 2 ^ 7 := by
          rw [ldiff_byte_128 hb0, land_127_eq_mod]; omega
        -- byte 2 (shift 7)
        by_cases hk1 : byteAt buf (i0 + 1) < 128
        · obtain ⟨hf, hsl⟩ := (chain_step hb' i0 (i0 + 1) _ 7 (by omega) hinv1 (by norm_num)).1 hk1
          simp only [hf]
          rw [hsl]
          exact ⟨rfl, fun _ => rfl⟩
        · obtain ⟨hf, hsl⟩ :=
            (chain_step hb' i0 (i0 + 1) _ 7 (by omega) hinv1 (by norm_num)).2 (by omega)
          simp only [hf]
          rw [hsl]
          have hinv2 := acc_lt hinv1 (b := byteAt buf (i0 + 1))
          -- byte 3 (shift 14)
          by_cases hk2 : byteAt buf (i0 + 1 + 1) < 128
          · obtain ⟨hf2, hsl2⟩ :=
              (chain_step hb' i0 (i0 + 1 + 1) _ 14 (by omega) hinv2 (by norm_num)).1 hk2
            simp only [hf2]
            rw [hsl2]
            exact ⟨rfl, fun _ => rfl⟩
          · obtain ⟨hf2, hsl2⟩ :=
              (chain_step hb' i0 (i0 + 1 + 1) _ 14 (by omega) hinv2 (by norm_num)).2 (by omega)
            simp only [hf2]
            rw [hsl2]
            have hinv3 := acc_lt hinv2 (b := byteAt buf (i0 + 1 + 1))
            -- byte 4 (shift 21)
            by_cases hk3 : byteAt buf (i0 + 1 + 1 + 1) < 128
            · obtain ⟨hf3, hsl3⟩ :=
                (chain_step hb' i0 (i0 + 1 + 1 + 1) _ 21 (by omega) hinv3 (by norm_num)).1 hk3
              simp only [hf3]
              rw [hsl3]
              exact ⟨rfl, fun _ => rfl⟩
            · obtain ⟨hf3, hsl3⟩ :=
                (chain_step hb' i0 (i0 + 1 + 1 + 1) _ 21 (by omega) hinv3 (by norm_num)).2 (by omega)
              simp only [hf3]
              rw [hsl3]
              have hinv4 := acc_lt hinv3 (b := byteAt buf (i0 + 1 + 1 + 1))
              -- byte 5 (shift 28)
              by_cases hk4 : byteAt buf (i0 + 1 + 1 + 1 + 1) < 128
              · obtain ⟨hf4, hsl4⟩ :=
                  (chain_step hb' i0 (i0 + 1 + 1 + 1 + 1) _ 28 (by omega) hinv4
                    (by norm_num)).1 hk4
                simp only [hf4]
                rw [hsl4]
                exact ⟨rfl, fun _ => rfl⟩
              · obtain ⟨hf4, hsl4⟩ :=
                  (chain_step hb' i0 (i0 + 1 + 1 + 1 + 1) _ 28 (by omega) hinv4
                    (by norm_num)).2 (by omega)
                simp only [hf4]
                rw [hsl4]
                have hinv5 := acc_lt hinv4 (b := byteAt buf (i0 + 1 + 1 + 1 + 1))
                -- byte 6 (shift 35)
                by_cases hk5 : byteAt buf (i0 + 1 + 1 + 1 + 1 + 1) < 128
                · obtain ⟨hf5, hsl5⟩ :=
                    (chain_step hb' i0 (i0 + 1 + 1 + 1 + 1 + 1) _ 35 (by omega) hinv5
                      (by norm_num)).1 hk5
                  simp only [hf5]
                  rw [hsl5]
                  exact ⟨rfl, fun _ => rfl⟩
                · obtain ⟨hf5, hsl5⟩ :=
                    (chain_step hb' i0 (i0 + 1 + 1 + 1 + 1 + 1) _ 35 (by omega) hinv5
                      (by norm_num)).2 (by omega)
                  simp only [hf5]
                  rw [hsl5]
                  have hinv6 := acc_lt hinv5 (b := byteAt buf (i0 + 1 + 1 + 1 + 1 + 1))
                  -- byte 7 (shift 42)
                  by_cases hk6 : byteAt buf (i0 + 1 + 1 + 1 + 1 + 1 + 1) < 128
                  · obtain ⟨hf6, hsl6⟩ :=
                      (chain_step hb' i0 (i0 + 1 + 1 + 1 + 1 + 1 + 1) _ 42 (by omega) hinv6
                        (by norm_num)).1 hk6
                    simp only [hf6]
                    rw [hsl6]
                    exact ⟨rfl, fun _ => rfl⟩
                  · obtain ⟨hf6, hsl6⟩ :=
                      (chain_step hb' i0 (i0 + 1 + 1 + 1 + 1 + 1 + 1) _ 42 (by omega) hinv6
                        (by norm_num)).2 (by omega)
                    simp only [hf6]
                    rw [hsl6]
                    have hinv7 := acc_lt hinv6 (b := byteAt buf (i0 + 1 + 1 + 1 + 1 + 1 + 1))
                    -- byte 8 (shift 49)
                    by_cases hk7 : byteAt buf (i0 + 1 + 1 + 1 + 1 + 1 + 1 + 1) < 128
                    · obtain ⟨hf7, hsl7⟩ :=
                        (chain_step hb' i0 (i0 + 1 + 1 + 1 + 1 + 1 + 1 + 1) _ 49 (by omega)
                          hinv7 (by norm_num)).1 hk7
                      simp only [hf7]
                      rw [hsl7]
                      exact ⟨rfl, fun _ => rfl⟩
                    · obtain ⟨hf7, hsl7⟩ :=
                        (chain_step hb' i0 (i0 + 1 + 1 + 1 + 1 + 1 + 1 + 1) _ 49 (by omega)
                          hinv7 (by norm_num)).2 (by omega)
                      simp only [hf7]
                      rw [hsl7]
                      have hinv8 :=
                        acc_lt hinv7 (b := byteAt buf (i0 + 1 + 1 + 1 + 1 + 1 + 1 + 1))
                      -- byte 9 (shift 56)
                      by_cases hk8 : byteAt buf (i0 + 1 + 1 + 1 + 1 + 1 + 1 + 1 + 1) < 128
                      · obtain ⟨hf8, hsl8⟩ :=
                          (chain_step hb' i0 (i0 + 1 + 1 + 1 + 1 + 1 + 1 + 1 + 1) _ 56
                            (by omega) hinv8 (by norm_num)).1 hk8
                        simp only [hf8]
                        rw [hsl8]
                        exact ⟨rfl, fun _ => rfl⟩
                      · obtain ⟨hf8, hsl8⟩ :=
                          (chain_step hb' i0 (i0 + 1 + 1 + 1 + 1 + 1 + 1 + 1 + 1) _ 56
                            (by omega) hinv8 (by norm_num)).2 (by omega)
                        simp only [hf8]
                        rw [hsl8]
                        have hinv9 :=
                          acc_lt hinv8 (b := byteAt buf (i0 + 1 + 1 + 1 + 1 + 1 + 1 + 1 + 1))
                        -- byte 10 (shift 63): the final, special-cased byte
                        have hb9 := byteAt_lt hb' (i0 + 1 + 1 + 1 + 1 + 1 + 1 + 1 + 1 + 1)
                        rw [slowLoop_step i0 (i0 + 1 + 1 + 1 + 1 + 1 + 1 + 1 + 1 + 1) _ 63
                          (by norm_num) (by omega)]
                        by_cases hk9 : byteAt buf (i0 + 1 + 1 + 1 + 1 + 1 + 1 + 1 + 1 + 1) < 2
                        · have hlt : byteAt buf (i0 + 1 + 1 + 1 + 1 + 1 + 1 + 1 + 1 + 1) < 128 :=
                            by omega
                          have hfe : byteAt buf (i0 + 1 + 1 + 1 + 1 + 1 + 1 + 1 + 1 + 1) &&& 0xfe
                              = 0 := (land_254_eq_zero_iff hb9).mpr hk9
                          have h63 : ¬ ((63 : Nat) = 63
                              ∧ byteAt buf (i0 + 1 + 1 + 1 + 1 + 1 + 1 + 1 + 1 + 1) &&& 0xfe
                                  ≠ 0) := by
                            rintro ⟨-, h2⟩; exact h2 hfe
                          rw [if_pos hk9, if_pos hlt, if_neg h63, land_127_of_lt hlt]
                          exact ⟨rfl, fun _ => rfl⟩
                        · by_cases hlt : byteAt buf (i0 + 1 + 1 + 1 + 1 + 1 + 1 + 1 + 1 + 1) < 128
                          · have hfe : ¬ (byteAt buf (i0 + 1 + 1 + 1 + 1 + 1 + 1 + 1 + 1 + 1)
                                &&& 0xfe = 0) := by
                              rw [land_254_eq_zero_iff hb9]; omega
                            have h63 : ((63 : Nat) = 63
                                ∧ byteAt buf (i0 + 1 + 1 + 1 + 1 + 1 + 1 + 1 + 1 + 1) &&& 0xfe
                                    ≠ 0) := ⟨rfl, hfe⟩
                            rw [if_neg hk9, if_pos hlt, if_pos h63]
                            exact ⟨rfl, fun h => (h rfl).elim⟩
                          · rw [if_neg hk9, if_neg hlt,
                              slowLoop_exhaust i0 _ _ (63 + 7) (by norm_num)]
                            exact ⟨rfl, fun h => (h rfl).elim⟩

/-! ## Classification of varint decoding outcomes -/

lemma contCount_stop {buf : List Nat} {i : Nat} (h : ¬ i < buf.length) : contCount buf i = 0 := by
  rw [contCount]
  simp [h]

lemma contCount_clear {buf : List Nat} {i : Nat} (h : i < buf.length)
    (hb : byteAt buf i < 0x80) : contCount buf i = 0 := by
  rw [contCount]
  simp only [h, dif_pos]
  rw [if_neg (by omega)]

lemma contCount_cont {buf : List Nat} {i : Nat} (h : i < buf.length)
    (hb : 0x80 ≤ byteAt buf i) : contCount buf i = contCount buf (i + 1) + 1 := by
  rw [contCount]
  simp only [h, dif_pos]
  rw [if_pos hb]

lemma contCount_add_le (buf : List Nat) (i : Nat) (h : i ≤ buf.length) :
    i + contCount buf i ≤ buf.length := by
  by_cases hi : i < buf.length
  · by_cases hc : 0x80 ≤ byteAt buf i
    · rw [contCount_cont hi hc]
      have h2 := contCount_add_le buf (i + 1) (by omega)
      omega
    · rw [contCount_clear hi (by omega)]
      omega
  · rw [contCount_stop hi]
    omega
termination_by buf.length - i

/-- A well-formed varint starts at position `i`: a terminator byte arrives
within the first 10 bytes and, if it is the 10th byte, its upper 7 bits
(`0xfe` mask) are all zero. -/
def WellFormedVarintAt (buf : List Nat) (i : Nat) : Prop :=
  contCount buf i ≤ 9 ∧ i + contCount buf i < buf.length ∧
    (contCount buf i = 9 → byteAt buf (i + contCount buf i) &&& 0xfe = 0)

/-- The buffer runs out (fewer than 10 bytes remain) before any terminator
byte is seen. -/
def TruncatedVarintAt (buf : List Nat) (i : Nat) : Prop :=
  buf.length ≤ i + contCount buf i ∧ buf.length - i ≤ 9

/-- Decoding would consume more than 10 bytes, or the 10th byte terminates
but has disallowed upper bits. -/
def OverlongVarintAt (buf : List Nat) (i : Nat) : Prop :=
  10 ≤ contCount buf i ∨
    (contCount buf i = 9 ∧ i + contCount buf i < buf.length ∧
      byteAt buf (i + contCount buf i) &&& 0xfe ≠ 0)

lemma varint_trichotomy (buf : List Nat) (i : Nat) :
    WellFormedVarintAt buf i ∨ TruncatedVarintAt buf i ∨ OverlongVarintAt buf i := by
  unfold WellFormedVarintAt TruncatedVarintAt OverlongVarintAt
  by_cases hin : i + contCount buf i < buf.length
  · rcases Nat.lt_or_ge (contCount buf i) 9 with h9 | h9
    · exact Or.inl ⟨by omega, hin, by omega⟩
    · rcases Nat.eq_or_lt_of_le h9 with h9e | h9l
      · by_cases hclean : byteAt buf (i + contCount buf i) &&& 0xfe = 0
        · exact Or.inl ⟨by omega, hin, fun _ => hclean⟩
        · exact Or.inr (Or.inr (Or.inr ⟨h9e.symm, hin, hclean⟩))
      · exact Or.inr (Or.inr (Or.inl (by omega)))
  · by_cases hi : i ≤ buf.length
    · have hle := contCount_add_le buf i hi
      rcases Nat.lt_or_ge (contCount buf i) 10 with h10 | h10
      · exact Or.inr (Or.inl ⟨by omega, by omega⟩)
      · exact Or.inr (Or.inr (Or.inl h10))
    · rw [contCount_stop (by omega)]
      exact Or.inr (Or.inl ⟨by omega, by omega⟩)

/-- Outcome of the slow loop at iteration `k` (shift `7*k`), in terms of the
number of continuation bytes seen ahead of the cursor. -/
lemma slowLoop_spec (buf : List Nat) (i0 : Nat) :
    ∀ (m k i x : Nat), k + m = 9 →
      ((contCount buf i + k ≤ 9 ∧ i + contCount buf i < buf.length ∧
          (contCount buf i + k = 9 → byteAt buf (i + contCount buf i) &&& 0xfe = 0)) →
        (slowLoop buf i0 i x (7 * k)).err = none ∧
          (slowLoop buf i0 i x (7 * k)).index = i + contCount buf i + 1) ∧
      ((buf.length ≤ i + contCount buf i ∧ buf.length - i + k ≤ 9) →
        (slowLoop buf i0 i x (7 * k)).err = some .unexpectedEOF ∧
          (slowLoop buf i0 i x (7 * k)).index = i0) ∧
      ((10 ≤ contCount buf i + k ∨
          (contCount buf i + k = 9 ∧ i + contCount buf i < buf.length ∧
            byteAt buf (i + contCount buf i) &&& 0xfe ≠ 0)) →
        (slowLoop buf i0 i x (7 * k)).err = some .overflow) := by
  intro m
  induction m with
  | zero =>
    intro k i x hk
    have hk9 : k = 9 := by omega
    subst hk9
    by_cases hi : i < buf.length
    · by_cases hcont : 0x80 ≤ byteAt buf i
      · -- continuation byte at the 10th position: the loop exhausts the shift
        have hc := contCount_cont hi hcont
        have hout : (slowLoop buf i0 i x (7 * 9)).err = some .overflow := by
          rw [slowLoop_step i0 i x (7 * 9) (by norm_num) hi, if_neg (by omega),
            slowLoop_exhaust i0 _ _ (7 * 9 + 7) (by norm_num)]
        refine ⟨fun h => absurd h.1 (by omega), fun h => absurd h.2 (by omega), fun _ => ?_⟩
        rw [hout]
      · -- terminator at the 10th byte: clean or overflow by the 0xfe bits
        have hc := contCount_clear hi (by omega)
        by_cases hfe : byteAt buf i &&& 0xfe = 0
        · have hout : (slowLoop buf i0 i x (7 * 9)).err = none
              ∧ (slowLoop buf i0 i x (7 * 9)).index = i + 1 := by
            rw [slowLoop_step i0 i x (7 * 9) (by norm_num) hi, if_pos (by omega),
              if_neg (by rintro ⟨-, h2⟩; exact h2 hfe)]
            exact ⟨rfl, rfl⟩
          refine ⟨fun _ => ⟨hout.1, by rw [hout.2]; omega⟩, fun h => absurd h.1 (by omega),
            fun h => ?_⟩
          rcases h with h | ⟨-, -, h3⟩
          · omega
          · rw [hc, Nat.add_zero] at h3
            exact absurd hfe h3
        · have hout : (slowLoop buf i0 i x (7 * 9)).err = some .overflow := by
            rw [slowLoop_step i0 i x (7 * 9) (by norm_num) hi, if_pos (by omega),
              if_pos ⟨by norm_num, hfe⟩]
          refine ⟨fun h => ?_, fun h => absurd h.1 (by omega), fun _ => hout⟩
          have h3 := h.2.2 (by omega)
          rw [hc, Nat.add_zero] at h3
          exact absurd h3 hfe
    · -- out of input at this iteration
      have hc := contCount_stop hi
      have hout : slowLoop buf i0 i x (7 * 9) = ⟨x, some .unexpectedEOF, i0⟩ :=
        slowLoop_eof i0 i x (7 * 9) (by norm_num) hi
      refine ⟨fun h => absurd h.2.1 (by omega), fun _ => ⟨by rw [hout], by rw [hout]⟩,
        fun h => ?_⟩
      rcases h with h | ⟨-, h2, -⟩
      · omega
      · omega
  | succ m ih =>
    intro k i x hk
    have hk8 : k ≤ 8 := by omega
    by_cases hi : i < buf.length
    · by_cases hcont : 0x80 ≤ byteAt buf i
      · -- continuation byte: step to the next iteration and use the IH
        have hc := contCount_cont hi hcont
        have hstep : slowLoop buf i0 i x (7 * k) =
            slowLoop buf i0 (i + 1)
              (x ||| (((byteAt buf i &&& 127) <<< (7 * k)) % 2 ^ 64)) (7 * (k + 1)) := by
          have h77 : 7 * k + 7 = 7 * (k + 1) := by ring
          rw [slowLoop_step i0 i x (7 * k) (by omega) hi, if_neg (by omega), h77]
        obtain ⟨ihS, ihE, ihO⟩ := ih (k + 1) (i + 1)
          (x ||| (((byteAt buf i &&& 127) <<< (7 * k)) % 2 ^ 64)) (by omega)
        have hbyte : byteAt buf (i + contCount buf i)
            = byteAt buf (i + 1 + contCount buf (i + 1)) := by
          congr 1
          omega
        refine ⟨fun h => ?_, fun h => ?_, fun h => ?_⟩
        · obtain ⟨e1, e2⟩ := ihS ⟨by omega, by omega, fun h9 => by
            rw [← hbyte]; exact h.2.2 (by omega)⟩
          rw [hstep]
          exact ⟨e1, by omega⟩
        · obtain ⟨e1, e2⟩ := ihE ⟨by omega, by omega⟩
          rw [hstep]
          exact ⟨e1, e2⟩
        · rw [hstep]
          apply ihO
          rcases h with h | ⟨h1, h2, h3⟩
          · exact Or.inl (by omega)
          · exact Or.inr ⟨by omega, by omega, by rw [← hbyte]; exact h3⟩
      · -- terminator byte before the 10th position: clean success
        have hc := contCount_clear hi (by omega)
        have hout : (slowLoop buf i0 i x (7 * k)).err = none
            ∧ (slowLoop buf i0 i x (7 * k)).index = i + 1 := by
          rw [slowLoop_step i0 i x (7 * k) (by omega) hi, if_pos (by omega),
            if_neg (by rintro ⟨h1, -⟩; omega)]
          exact ⟨rfl, rfl⟩
        refine ⟨fun _ => ⟨hout.1, by rw [hout.2]; omega⟩, fun h => absurd h.1 (by omega),
          fun h => ?_⟩
        rcases h with h | ⟨h1, -, -⟩
        · omega
        · omega
    · have hc := contCount_stop hi
      have hout : slowLoop buf i0 i x (7 * k) = ⟨x, some .unexpectedEOF, i0⟩ :=
        slowLoop_eof i0 i x (7 * k) (by omega) hi
      refine ⟨fun h => absurd h.2.1 (by omega), fun _ => ⟨by rw [hout], by rw [hout]⟩,
        fun h => ?_⟩
      rcases h with h | ⟨-, h2, -⟩
      · omega
      · omega

/-- C1: `DecodeVarint` succeeds exactly on a well-formed varint of at most
10 bytes whose 10th byte, when present, has its upper 7 bits zero; it
returns the unexpected-end error when the buffer is exhausted before a byte
with the continuation bit clear, and the overflow error when more than 10
bytes would be consumed or the 10th byte has any of its upper 7 bits set. -/
theorem varint_decode_classified (p : Buffer) (hb : ∀ b ∈ p.buf, b < 256) :
    ((DecodeVarintGo p).err = none ↔ WellFormedVarintAt p.buf p.index) ∧
    ((DecodeVarintGo p).err = some PErr.unexpectedEOF ↔ TruncatedVarintAt p.buf p.index) ∧
    ((DecodeVarintGo p).err = some PErr.overflow ↔ OverlongVarintAt p.buf p.index) := by
  have herr : (DecodeVarintGo p).err = (decodeVarintSlowGo p).err := (fastSlow_rel p hb).1
  have hslow : decodeVarintSlowGo p = slowLoop p.buf p.index p.index 0 (7 * 0) := rfl
  obtain ⟨hS, hE, hO⟩ := slowLoop_spec p.buf p.index 9 0 p.index 0 (by norm_num)
  rw [herr, hslow]
  have hS' : WellFormedVarintAt p.buf p.index →
      (slowLoop p.buf p.index p.index 0 (7 * 0)).err = none := by
    rintro ⟨h1, h2, h3⟩
    exact (hS ⟨by omega, h2, fun h9 => h3 (by omega)⟩).1
  have hE' : TruncatedVarintAt p.buf p.index →
      (slowLoop p.buf p.index p.index 0 (7 * 0)).err = some .unexpectedEOF := by
    rintro ⟨h1, h2⟩
    exact (hE ⟨h1, by omega⟩).1
  have hO' : OverlongVarintAt p.buf p.index →
      (slowLoop p.buf p.index p.index 0 (7 * 0)).err = some .overflow := by
    rintro (h | ⟨h1, h2, h3⟩)
    · exact hO (Or.inl (by omega))
    · exact hO (Or.inr ⟨by omega, h2, h3⟩)
  refine ⟨⟨fun he => ?_, hS'⟩, ⟨fun he => ?_, hE'⟩, ⟨fun he => ?_, hO'⟩⟩
  · rcases varint_trichotomy p.buf p.index with h | h | h
    · exact h
    · rw [hE' h] at he
      cases he
    · rw [hO' h] at he
      cases he
  · rcases varint_trichotomy p.buf p.index with h | h | h
    · rw [hS' h] at he
      cases he
    · exact h
    · rw [hO' h] at he
      cases he
  · rcases varint_trichotomy p.buf p.index with h | h | h
    · rw [hS' h] at he
      cases he
    · rw [hE' h] at he
      cases he
    · exact h

/-- Witness for C1 at the concrete buffer `[0x96, 0x01]` (varint 150). -/
theorem varint_decode_classified_witness :
    (∀ b ∈ [0x96, 0x01], b < 256) ∧
    (((DecodeVarintGo ⟨[0x96, 0x01], 0⟩).err = none ↔ WellFormedVarintAt [0x96, 0x01] 0) ∧
     ((DecodeVarintGo ⟨[0x96, 0x01], 0⟩).err = some PErr.unexpectedEOF ↔
        TruncatedVarintAt [0x96, 0x01] 0) ∧
     ((DecodeVarintGo ⟨[0x96, 0x01], 0⟩).err = some PErr.overflow ↔
        OverlongVarintAt [0x96, 0x01] 0)) :=
  ⟨by decide, varint_decode_classified ⟨[0x96, 0x01], 0⟩ (by decide)⟩

/-- C2 (amended): the fast-path `DecodeVarint` and the bounds-checking
`decodeVarintSlow` always return the same error, and whenever that error is
not the overflow error they also return the same value and leave the read
cursor at the same final position. -/
theorem fastSlow_agree (p : Buffer) (hb : ∀ b ∈ p.buf, b < 256) :
    (DecodeVarintGo p).err = (decodeVarintSlowGo p).err ∧
    ((DecodeVarintGo p).err ≠ some PErr.overflow → DecodeVarintGo p = decodeVarintSlowGo p) :=
  fastSlow_rel p hb

/-- Witness for C2 (amended) at the concrete buffer `[5]`. -/
theorem fastSlow_agree_witness :
    (∀ b ∈ [5], b < 256) ∧
    ((DecodeVarintGo ⟨[5], 0⟩).err = (decodeVarintSlowGo ⟨[5], 0⟩).err ∧
     ((DecodeVarintGo ⟨[5], 0⟩).err ≠ some PErr.overflow →
        DecodeVarintGo ⟨[5], 0⟩ = decodeVarintSlowGo ⟨[5], 0⟩)) :=
  ⟨by decide, fastSlow_agree ⟨[5], 0⟩ (by decide)⟩

/-- Counterexample to C2 as stated: on the 10-byte input
`81 80 80 80 80 80 80 80 80 02` (10th byte terminates but has a disallowed
bit) both paths report overflow, but the fast path returns value 0 leaving
the cursor at 0 while the slow path returns the partial value 1 with the
cursor advanced to 10. -/
theorem fastSlow_counterexample :
    (DecodeVarintGo ⟨[0x81, 0x80, 0x80, 0x80, 0x80, 0x80, 0x80, 0x80, 0x80, 0x02], 0⟩).x ≠
      (decodeVarintSlowGo ⟨[0x81, 0x80, 0x80, 0x80, 0x80, 0x80, 0x80, 0x80, 0x80, 0x02], 0⟩).x ∧
    (DecodeVarintGo ⟨[0x81, 0x80, 0x80, 0x80, 0x80, 0x80, 0x80, 0x80, 0x80, 0x02], 0⟩).index ≠
      (decodeVarintSlowGo
        ⟨[0x81, 0x80, 0x80, 0x80, 0x80, 0x80, 0x80, 0x80, 0x80, 0x02], 0⟩).index := by
  have hslow : decodeVarintSlowGo
      ⟨[0x81, 0x80, 0x80, 0x80, 0x80, 0x80, 0x80, 0x80, 0x80, 0x02], 0⟩
      = ⟨1, some .overflow, 10⟩ := by
    show slowLoop _ 0 0 0 0 = _
    simp [slowLoop, byteAt]
    decide
  rw [hslow]
  have hfast : DecodeVarintGo
      ⟨[0x81, 0x80, 0x80, 0x80, 0x80, 0x80, 0x80, 0x80, 0x80, 0x02], 0⟩
      = ⟨0, some .overflow, 0⟩ := by decide
  rw [hfast]
  exact ⟨by decide, by decide⟩

/-! ## Count-ahead helpers and the remaining value decoders -/

/-- `(*Buffer).CountVarints`: every varint ends in a byte with the top bit
cleared, so summing `int(b>>7) ^ 1` over the remaining bytes counts the
varints. -/
def CountVarintsGo (p : Buffer) : Nat :=
  (p.buf.drop p.index).foldl (fun n b => n + ((b >>> 7) ^^^ 1)) 0

/-- `(*Buffer).CountFixed32s`: the remaining byte count divided by 4. -/
def CountFixed32sGo (p : Buffer) : Nat :=
  (p.buf.drop p.index).length / 4

/-- `(*Buffer).CountFixed64s`: the remaining byte count divided by 8. -/
def CountFixed64sGo (p : Buffer) : Nat :=
  (p.buf.drop p.index).length / 8

/-- Little-endian load of `w` bytes starting at position `i` (the unaligned
load plus `le64tocpu`/`le32tocpu` of the source always yields the
little-endian interpretation of the bytes, whatever the host's endianness). -/
def leLoad (buf : List Nat) (i : Nat) : Nat → Nat
  | 0 => 0
  | w + 1 => byteAt buf i + 256 * leLoad buf (i + 1) w

/-- `(*Buffer).DecodeFixed64`: exactly 8 little-endian bytes. The source's
`i < 8` guard protects against unsigned wraparound of `p.index + 8` and is
kept although it cannot fire on `Nat`. -/
def DecodeFixed64Go (p : Buffer) : VarintOut :=
  let i := p.index + 8
  if i < 8 ∨ i > p.buf.length then ⟨0, some .unexpectedEOF, p.index⟩
  else ⟨leLoad p.buf (i - 8) 8, none, i⟩

/-- `(*Buffer).DecodeFixed32`: exactly 4 little-endian bytes. -/
def DecodeFixed32Go (p : Buffer) : VarintOut :=
  let i := p.index + 4
  if i < 4 ∨ i > p.buf.length then ⟨0, some .unexpectedEOF, p.index⟩
  else ⟨leLoad p.buf (i - 4) 4, none, i⟩

/-- `(*Buffer).DecodeZigzag64`: read a varint, then
`x = (x >> 1) ^ uint64((int64(x&1)<<63)>>63)` (the arithmetic shift makes
the mask 0 or all-ones according to the low bit). -/
def DecodeZigzag64Go (p : Buffer) : VarintOut :=
  let r := DecodeVarintGo p
  match r.err with
  | some e => ⟨r.x, some e, r.index⟩
  | none =>
    let mask := if r.x &&& 1 = 1 then 2 ^ 64 - 1 else 0
    ⟨(r.x >>> 1) ^^^ mask, none, r.index⟩

/-- `(*Buffer).DecodeZigzag32`: read a varint, zig-zag-decode its low 32
bits as an `int32`, and sign-extend the result through the 64-bit return. -/
def DecodeZigzag32Go (p : Buffer) : VarintOut :=
  let r := DecodeVarintGo p
  match r.err with
  | some e => ⟨r.x, some e, r.index⟩
  | none =>
    let mask32 := if r.x &&& 1 = 1 then 2 ^ 32 - 1 else 0
    let y := ((r.x % 2 ^ 32) >>> 1) ^^^ mask32
    -- int32 → uint64 sign extension
    let x := if y < 2 ^ 31 then y else 2 ^ 64 - 2 ^ 32 + y
    ⟨x, none, r.index⟩

/-- The `valueDecoder` function handle stored in a `Properties`
(`p.valDec`), as a closed enumeration of the five decoders the plan
builder can install. -/
inductive ValDec
  | varintD
  | fixed32D
  | fixed64D
  | zigzag32D
  | zigzag64D
  deriving DecidableEq, Repr

def valDecRun : ValDec → Buffer → VarintOut
  | .varintD, p => DecodeVarintGo p
  | .fixed32D, p => DecodeFixed32Go p
  | .fixed64D, p => DecodeFixed64Go p
  | .zigzag32D, p => DecodeZigzag32Go p
  | .zigzag64D, p => DecodeZigzag64Go p

/-- The `valueCounter` handle (`p.valCnt`) installed next to each value
decoder by `Properties.Parse`: varint and both zig-zags count varints,
the fixed widths count fixed-width slots. -/
def valCntRun : ValDec → Buffer → Nat
  | .varintD, p => CountVarintsGo p
  | .fixed32D, p => CountFixed32sGo p
  | .fixed64D, p => CountFixed64sGo p
  | .zigzag32D, p => CountVarintsGo p
  | .zigzag64D, p => CountVarintsGo p

/-- The extraction loop of `dec_slice_packed_int64` (and its siblings):
`for o.index < fin { u, err := p.valDec(o); ...; y = append(y, u) }`.
The fuel argument is an artifact of the embedding; any fuel at least the
byte length of the block makes it behave as the unbounded source loop,
because every successful value decode consumes at least one byte. -/
def packedLoop (vd : ValDec) (fin : Nat) : Nat → Buffer → List Nat →
    Except PErr (Buffer × List Nat)
  | 0, o, y => if o.index < fin then .error .fuelExhausted else .ok (o, y)
  | fuel + 1, o, y =>
    if o.index < fin then
      let r := valDecRun vd o
      match r.err with
      | some e => .error e
      | none => packedLoop vd fin fuel ⟨o.buf, r.index⟩ (y ++ [r.x])
    else .ok (o, y)

/-- `(*Buffer).dec_slice_packed_int64` (the shape shared by the packed
sequence decoders): read the byte length of the block, then extract values
until the block is exhausted. The `make([]uint64, 0, p.valCnt(o))`
preallocation only sizes the destination and has no observable effect on
the decoded values, so it does not appear here. -/
def dec_slice_packed_int64Go (vd : ValDec) (o : Buffer) (v : List Nat) :
    Except PErr (Buffer × List Nat) :=
  let r := DecodeVarintGo o
  match r.err with
  | some e => .error e
  | none =>
    let nb := r.x
    let fin := r.index + nb
    -- `if fin < o.index { return errOverflow }`: the uint wraparound guard,
    -- kept although it cannot fire on Nat
    if fin < r.index then .error .overflow
    else packedLoop vd fin (nb + 1) ⟨o.buf, r.index⟩ v

/-- Number of bytes with the top bit clear in positions `[i, fin)`. -/
def clearCount (buf : List Nat) (i fin : Nat) : Nat :=
  if _h : i < fin then
    (if byteAt buf i < 0x80 then 1 else 0) + clearCount buf (i + 1) fin
  else 0
termination_by fin - i

/-- The byte range `[i, fin)` is an exact concatenation of well-formed
varints. -/
def IsVarintBlock (buf : List Nat) (i fin : Nat) : Prop :=
  if _h : fin ≤ i then i = fin
  else WellFormedVarintAt buf i ∧ i + contCount buf i + 1 ≤ fin ∧
    IsVarintBlock buf (i + contCount buf i + 1) fin
termination_by fin - i

lemma clearCount_step {buf : List Nat} {i fin : Nat} (h : i < fin) :
    clearCount buf i fin
      = (if byteAt buf i < 0x80 then 1 else 0) + clearCount buf (i + 1) fin := by
  rw [clearCount]
  simp [h]

lemma clearCount_stop {buf : List Nat} {i fin : Nat} (h : ¬ i < fin) :
    clearCount buf i fin = 0 := by
  rw [clearCount]
  simp [h]

/-- All the bytes counted by `contCount` have the continuation bit set. -/
lemma contCount_mem_cont (buf : List Nat) (i : Nat) :
    ∀ j, j < contCount buf i → 0x80 ≤ byteAt buf (i + j) := by
  intro j hj
  by_cases hi : i < buf.length
  · by_cases hc : 0x80 ≤ byteAt buf i
    · match j with
      | 0 => exact hc
      | j + 1 =>
        rw [contCount_cont hi hc] at hj
        have h2 := contCount_mem_cont buf (i + 1) j (by omega)
        have he : i + 1 + j = i + (j + 1) := by omega
        rw [he] at h2
        exact h2
    · rw [contCount_clear hi (by omega)] at hj
      omega
  · rw [contCount_stop hi] at hj
    omega
termination_by buf.length - i

/-- The byte just past the counted run, when in bounds, terminates. -/
lemma contCount_end_clear (buf : List Nat) (i : Nat)
    (h : i + contCount buf i < buf.length) : byteAt buf (i + contCount buf i) < 0x80 := by
  by_cases hi : i < buf.length
  · by_cases hc : 0x80 ≤ byteAt buf i
    · rw [contCount_cont hi hc] at h ⊢
      have h2 := contCount_end_clear buf (i + 1) (by omega)
      have he : i + 1 + contCount buf (i + 1) = i + (contCount buf (i + 1) + 1) := by omega
      rw [he] at h2
      exact h2
    · rw [contCount_clear hi (by omega), Nat.add_zero]
      omega
  · rw [contCount_stop hi] at h
    omega
termination_by buf.length - i

/-- Skipping a whole varint (a run of continuation bytes plus its
terminator) removes exactly one from the clear-byte count. -/
lemma clearCount_segment (buf : List Nat) (fin : Nat) :
    ∀ c i, (∀ j, j < c → 0x80 ≤ byteAt buf (i + j)) → byteAt buf (i + c) < 0x80 →
      i + c < fin → clearCount buf i fin = 1 + clearCount buf (i + c + 1) fin := by
  intro c
  induction c with
  | zero =>
    intro i _ hclear hfin
    rw [clearCount_step (by omega)]
    rw [Nat.add_zero] at hclear
    simp [hclear]
  | succ c ih =>
    intro i hcont hclear hfin
    rw [clearCount_step (by omega)]
    have h0 : 0x80 ≤ byteAt buf i := by
      have := hcont 0 (by omega)
      rwa [Nat.add_zero] at this
    rw [if_neg (by omega)]
    have hcl2 : byteAt buf (i + 1 + c) < 128 := by
      have he2 : i + 1 + c = i + (c + 1) := by omega
      rw [he2]
      exact hclear
    have h2 := ih (i + 1) (fun j hj => by
        have h3 := hcont (j + 1) (by omega)
        have he3 : i + (j + 1) = i + 1 + j := by omega
        rwa [he3] at h3) hcl2 (by omega)
    rw [h2]
    have he : i + 1 + c + 1 = i + (c + 1) + 1 := by omega
    rw [he]
    omega

lemma shiftXor_byte {b : Nat} (hb : b < 256) :
    (b >>> 7) ^^^ 1 = if b < 0x80 then 1 else 0 := by
  rw [Nat.shiftRight_eq_div_pow]
  by_cases h : b < 128
  · have hd : b / 2 ^ 7 = 0 := by
      norm_num
      omega
    rw [hd, if_pos h]
    decide
  · have hd : b / 2 ^ 7 = 1 := by
      norm_num
      omega
    rw [hd, if_neg h]
    decide

/-- `CountVarints` counts exactly the bytes with the top bit clear. -/
lemma countVarints_eq_clearCount (buf : List Nat) (hb : ∀ b ∈ buf, b < 256) :
    ∀ i acc, (buf.drop i).foldl (fun n b => n + ((b >>> 7) ^^^ 1)) acc
      = acc + clearCount buf i buf.length := by
  intro i
  by_cases hi : i < buf.length
  · intro acc
    rw [List.drop_eq_getElem_cons hi, List.foldl_cons]
    have hbyte : buf[i] = byteAt buf i := (List.getD_eq_getElem buf 0 hi).symm
    rw [hbyte, shiftXor_byte (byteAt_lt hb i)]
    rw [countVarints_eq_clearCount buf hb (i + 1)]
    rw [clearCount_step (show i < buf.length from hi)]
    omega
  · intro acc
    rw [List.drop_eq_nil_of_le (by omega), clearCount_stop (by omega)]
    simp

/-- On a well-formed varint, `DecodeVarint` succeeds and leaves the cursor
just past the terminator byte. -/
lemma decodeVarint_success {buf : List Nat} (hb : ∀ b ∈ buf, b < 256) {i : Nat}
    (h : WellFormedVarintAt buf i) :
    (DecodeVarintGo ⟨buf, i⟩).err = none ∧
      (DecodeVarintGo ⟨buf, i⟩).index = i + contCount buf i + 1 := by
  have hrel := fastSlow_rel ⟨buf, i⟩ hb
  have hslow : decodeVarintSlowGo ⟨buf, i⟩ = slowLoop buf i i 0 (7 * 0) := rfl
  obtain ⟨hS, -, -⟩ := slowLoop_spec buf i 9 0 i 0 (by norm_num)
  obtain ⟨h1, h2, h3⟩ := h
  obtain ⟨e1, e2⟩ := hS ⟨by omega, h2, fun h9 => h3 (by omega)⟩
  have herr : (DecodeVarintGo ⟨buf, i⟩).err = none := by
    rw [hrel.1, hslow]
    exact e1
  refine ⟨herr, ?_⟩
  have heq := hrel.2 (by rw [herr]; simp)
  rw [heq, hslow]
  exact e2

/-- The varint-consuming value decoders agree with `DecodeVarint` on error
and cursor (they only post-process the value). -/
lemma valDec_varintlike {vd : ValDec}
    (hvd : vd = .varintD ∨ vd = .zigzag32D ∨ vd = .zigzag64D) (p : Buffer) :
    (valDecRun vd p).err = (DecodeVarintGo p).err ∧
      (valDecRun vd p).index = (DecodeVarintGo p).index := by
  rcases hvd with h | h | h <;> subst h
  · exact ⟨rfl, rfl⟩
  · rcases he : (DecodeVarintGo p).err with - | e <;>
      simp [valDecRun, DecodeZigzag32Go, he]
  · rcases he : (DecodeVarintGo p).err with - | e <;>
      simp [valDecRun, DecodeZigzag64Go, he]

/-- Extraction from a well-formed varint block consumes the block exactly
and appends one value per varint. -/
lemma packedLoop_extract (buf : List Nat) (hb : ∀ b ∈ buf, b < 256) (fin : Nat)
    {vd : ValDec} (hvd : vd = .varintD ∨ vd = .zigzag32D ∨ vd = .zigzag64D) :
    ∀ fuel i y, IsVarintBlock buf i fin → fin ≤ buf.length → fin ≤ i + fuel →
      ∃ us, packedLoop vd fin fuel ⟨buf, i⟩ y = .ok (⟨buf, fin⟩, y ++ us) ∧
        us.length = clearCount buf i fin := by
  intro fuel
  induction fuel with
  | zero =>
    intro i y hblock hfin hfuel
    have hif : i = fin := by
      rw [IsVarintBlock] at hblock
      rw [dif_pos (by omega)] at hblock
      exact hblock
    subst hif
    refine ⟨[], ?_, ?_⟩
    · simp [packedLoop]
    · rw [clearCount_stop (by omega)]
      rfl
  | succ fuel ih =>
    intro i y hblock hfin hfuel
    by_cases hlt : i < fin
    · rw [IsVarintBlock, dif_neg (by omega)] at hblock
      obtain ⟨hwf, hle, hrest⟩ := hblock
      have hdec := decodeVarint_success hb hwf
      have hvl := valDec_varintlike hvd ⟨buf, i⟩
      have herr : (valDecRun vd ⟨buf, i⟩).err = none := by rw [hvl.1]; exact hdec.1
      have hidx : (valDecRun vd ⟨buf, i⟩).index = i + contCount buf i + 1 := by
        rw [hvl.2]; exact hdec.2
      obtain ⟨us', e1, e2⟩ := ih (i + contCount buf i + 1) (y ++ [(valDecRun vd ⟨buf, i⟩).x])
        hrest hfin (by omega)
      refine ⟨(valDecRun vd ⟨buf, i⟩).x :: us', ?_, ?_⟩
      · rw [packedLoop, if_pos hlt]
        simp only [herr, hidx, e1]
        simp
      · have hseg := clearCount_segment buf fin (contCount buf i) i
          (contCount_mem_cont buf i) (contCount_end_clear buf i hwf.2.1) (by omega)
        rw [hseg]
        simp only [List.length_cons, e2]
        omega
    · rw [IsVarintBlock, dif_pos (by omega)] at hblock
      refine ⟨[], ?_, ?_⟩
      · simp [packedLoop, hlt, hblock]
      · rw [clearCount_stop (by omega)]
        rfl

/-- The fixed-width value decoders succeed exactly when `w` more bytes
remain, consuming exactly `w` bytes. -/
lemma valDec_fixed_success {vd : ValDec} {w : Nat}
    (hvd : (vd = .fixed32D ∧ w = 4) ∨ (vd = .fixed64D ∧ w = 8)) (p : Buffer)
    (h : p.index + w ≤ p.buf.length) :
    (valDecRun vd p).err = none ∧ (valDecRun vd p).index = p.index + w := by
  rcases hvd with ⟨h1, h2⟩ | ⟨h1, h2⟩ <;> subst h1 <;> subst h2
  · simp only [valDecRun, DecodeFixed32Go]
    rw [if_neg (by omega)]
    exact ⟨rfl, rfl⟩
  · simp only [valDecRun, DecodeFixed64Go]
    rw [if_neg (by omega)]
    exact ⟨rfl, rfl⟩

/-- Extraction from a packed block of fixed-width values consumes the block
exactly and appends one value per `w`-byte slot. -/
lemma packedLoop_extract_fixed (buf : List Nat) (fin : Nat) {vd : ValDec} {w : Nat}
    (hvd : (vd = .fixed32D ∧ w = 4) ∨ (vd = .fixed64D ∧ w = 8)) :
    ∀ fuel i y, fin ≤ buf.length → w ∣ (fin - i) → i ≤ fin → fin ≤ i + fuel →
      ∃ us, packedLoop vd fin fuel ⟨buf, i⟩ y = .ok (⟨buf, fin⟩, y ++ us) ∧
        us.length = (fin - i) / w := by
  have hw : 0 < w := by rcases hvd with ⟨-, h⟩ | ⟨-, h⟩ <;> omega
  intro fuel
  induction fuel with
  | zero =>
    intro i y _ _ hile hfuel
    have hif : i = fin := by omega
    subst hif
    exact ⟨[], by simp [packedLoop], by simp⟩
  | succ fuel ih =>
    intro i y hfin hdvd hile hfuel
    by_cases hlt : i < fin
    · have hwle : w ≤ fin - i := Nat.le_of_dvd (by omega) hdvd
      obtain ⟨e1, e2⟩ := valDec_fixed_success hvd ⟨buf, i⟩ (by show i + w ≤ buf.length; omega)
      have e2' : (valDecRun vd ⟨buf, i⟩).index = i + w := e2
      obtain ⟨us', f1, f2⟩ := ih (i + w) (y ++ [(valDecRun vd ⟨buf, i⟩).x]) hfin
        (by
          have hd2 : fin - (i + w) = (fin - i) - w := by omega
          rw [hd2]
          exact Nat.dvd_sub' hdvd dvd_rfl)
        (by omega) (by omega)
      refine ⟨(valDecRun vd ⟨buf, i⟩).x :: us', ?_, ?_⟩
      · rw [packedLoop, if_pos hlt]
        simp only [e1, e2', f1]
        simp
      · simp only [List.length_cons, f2]
        have hsplit : fin - i = (fin - (i + w)) + w := by omega
        rw [hsplit, Nat.add_div_right _ hw]
    · have hif : i = fin := by omega
      subst hif
      exact ⟨[], by simp [packedLoop], by simp⟩

/-- C6 (amended): whenever the packed block is well formed for its element
encoding and extends to the end of the buffer, the count-ahead helper
chosen for the element encoding (`CountVarints` for varint and zig-zag
elements, `CountFixed32s`/`CountFixed64s` for the fixed widths, evaluated
just after the block's byte length has been read) returns a count equal to
the number of values the packed-sequence decoder subsequently extracts
from that block. When further data follows the block the helper counts
over it as well and the equality can fail (see the counterexample). -/
theorem count_ahead_matches_packed (o : Buffer) (v : List Nat) (vd : ValDec)
    (hb : ∀ b ∈ o.buf, b < 256)
    (herr : (DecodeVarintGo o).err = none)
    (hend : (DecodeVarintGo o).index + (DecodeVarintGo o).x = o.buf.length)
    (hshape : match vd with
      | .varintD | .zigzag32D | .zigzag64D =>
          IsVarintBlock o.buf (DecodeVarintGo o).index o.buf.length
      | .fixed32D => 4 ∣ (DecodeVarintGo o).x
      | .fixed64D => 8 ∣ (DecodeVarintGo o).x) :
    ∃ us, dec_slice_packed_int64Go vd o v = .ok (⟨o.buf, o.buf.length⟩, v ++ us) ∧
      us.length = valCntRun vd ⟨o.buf, (DecodeVarintGo o).index⟩ := by
  have hunfold : dec_slice_packed_int64Go vd o v =
      packedLoop vd ((DecodeVarintGo o).index + (DecodeVarintGo o).x)
        ((DecodeVarintGo o).x + 1) ⟨o.buf, (DecodeVarintGo o).index⟩ v := by
    rw [dec_slice_packed_int64Go]
    simp only [herr]
    rw [if_neg (by omega)]
  rw [hend] at hunfold
  rw [hunfold]
  have hcnt_varint : CountVarintsGo ⟨o.buf, (DecodeVarintGo o).index⟩
      = clearCount o.buf (DecodeVarintGo o).index o.buf.length := by
    rw [CountVarintsGo]
    rw [countVarints_eq_clearCount o.buf hb (DecodeVarintGo o).index 0]
    omega
  rcases hvd : vd with - | - | - | - | -
  · subst hvd
    obtain ⟨us, e1, e2⟩ := packedLoop_extract o.buf hb o.buf.length (Or.inl rfl)
      ((DecodeVarintGo o).x + 1) (DecodeVarintGo o).index v
      hshape (le_refl _) (by omega)
    refine ⟨us, e1, ?_⟩
    rw [e2, valCntRun, hcnt_varint]
  · subst hvd
    obtain ⟨us, e1, e2⟩ := packedLoop_extract_fixed o.buf o.buf.length (Or.inl ⟨rfl, rfl⟩)
      ((DecodeVarintGo o).x + 1) (DecodeVarintGo o).index v
      (le_refl _)
      (by
        have hd : o.buf.length - (DecodeVarintGo o).index = (DecodeVarintGo o).x := by omega
        rw [hd]
        exact hshape)
      (by omega) (by omega)
    refine ⟨us, e1, ?_⟩
    rw [e2, valCntRun, CountFixed32sGo]
    simp only [List.length_drop]
  · subst hvd
    obtain ⟨us, e1, e2⟩ := packedLoop_extract_fixed o.buf o.buf.length (Or.inr ⟨rfl, rfl⟩)
      ((DecodeVarintGo o).x + 1) (DecodeVarintGo o).index v
      (le_refl _)
      (by
        have hd : o.buf.length - (DecodeVarintGo o).index = (DecodeVarintGo o).x := by omega
        rw [hd]
        exact hshape)
      (by omega) (by omega)
    refine ⟨us, e1, ?_⟩
    rw [e2, valCntRun, CountFixed64sGo]
    simp only [List.length_drop]
  · subst hvd
    obtain ⟨us, e1, e2⟩ := packedLoop_extract o.buf hb o.buf.length (Or.inr (Or.inl rfl))
      ((DecodeVarintGo o).x + 1) (DecodeVarintGo o).index v
      hshape (le_refl _) (by omega)
    refine ⟨us, e1, ?_⟩
    rw [e2, valCntRun, hcnt_varint]
  · subst hvd
    obtain ⟨us, e1, e2⟩ := packedLoop_extract o.buf hb o.buf.length (Or.inr (Or.inr rfl))
      ((DecodeVarintGo o).x + 1) (DecodeVarintGo o).index v
      hshape (le_refl _) (by omega)
    refine ⟨us, e1, ?_⟩
    rw [e2, valCntRun, hcnt_varint]

/-- Witness for C6 (amended): buffer `02 01 01` — a packed block of two
one-byte varints that ends exactly at the end of the buffer. -/
theorem count_ahead_matches_packed_witness :
    (∀ b ∈ [0x02, 0x01, 0x01], b < 256) ∧
    (DecodeVarintGo ⟨[0x02, 0x01, 0x01], 0⟩).err = none ∧
    (DecodeVarintGo ⟨[0x02, 0x01, 0x01], 0⟩).index + (DecodeVarintGo ⟨[0x02, 0x01, 0x01], 0⟩).x
      = 3 ∧
    (∃ us, dec_slice_packed_int64Go .varintD ⟨[0x02, 0x01, 0x01], 0⟩ []
        = .ok (⟨[0x02, 0x01, 0x01], 3⟩, [] ++ us) ∧
      us.length = valCntRun .varintD
        ⟨[0x02, 0x01, 0x01], (DecodeVarintGo ⟨[0x02, 0x01, 0x01], 0⟩).index⟩) := by
  have hc1 : contCount [0x02, 0x01, 0x01] 1 = 0 := by
    rw [contCount]
    norm_num [byteAt]
  have hc2 : contCount [0x02, 0x01, 0x01] 2 = 0 := by
    rw [contCount]
    norm_num [byteAt]
  have hvb3 : IsVarintBlock [0x02, 0x01, 0x01] 3 3 := by
    rw [IsVarintBlock]
    norm_num
  have hvb2 : IsVarintBlock [0x02, 0x01, 0x01] 2 3 := by
    rw [IsVarintBlock, dif_neg (by omega)]
    refine ⟨?_, ?_, ?_⟩
    · rw [WellFormedVarintAt, hc2]
      norm_num
    · rw [hc2]
    · rw [hc2]
      exact hvb3
  have hvb1 : IsVarintBlock [0x02, 0x01, 0x01] 1 3 := by
    rw [IsVarintBlock, dif_neg (by omega)]
    refine ⟨?_, ?_, ?_⟩
    · rw [WellFormedVarintAt, hc1]
      norm_num
    · rw [hc1]
      omega
    · rw [hc1]
      exact hvb2
  refine ⟨by decide, by decide, by decide, ?_⟩
  exact count_ahead_matches_packed ⟨[0x02, 0x01, 0x01], 0⟩ [] .varintD (by decide) (by decide)
    (by decide) hvb1

/-- Counterexample to C6 as stated: in buffer `02 01 01 08 01` the packed
block (length 2, at positions 1..2) is followed by a further field.  Just
after the block length has been read the cursor is at 1; `CountVarints`
there scans to the end of the buffer and returns 4, but the packed decoder
extracts only the 2 values inside the block. -/
theorem count_ahead_counterexample :
    (DecodeVarintGo ⟨[0x02, 0x01, 0x01, 0x08, 0x01], 0⟩).x = 2 ∧
    (DecodeVarintGo ⟨[0x02, 0x01, 0x01, 0x08, 0x01], 0⟩).index = 1 ∧
    dec_slice_packed_int64Go .varintD ⟨[0x02, 0x01, 0x01, 0x08, 0x01], 0⟩ []
      = .ok (⟨[0x02, 0x01, 0x01, 0x08, 0x01], 3⟩, [1, 1]) ∧
    ([1, 1] : List Nat).length ≠ CountVarintsGo ⟨[0x02, 0x01, 0x01, 0x08, 0x01], 1⟩ := by
  refine ⟨by decide, by decide, by rfl, by decide⟩

/-! ## Length-delimited reads, skip helpers and the struct-decoding driver -/

/-- Result of `DecodeRawBytes`: payload, error and final cursor. -/
structure BytesOut where
  bytes : List Nat
  err : Option PErr
  index : Nat
  deriving DecidableEq, Repr

/-- The shared tail of `DecodeRawBytes`: bounds-check `end := i + c` and
slice out the payload. -/
def rawBytesTail (p : Buffer) (i c : Nat) : BytesOut :=
  let endi := i + c
  if endi < i ∨ endi > p.buf.length then ⟨[], some .unexpectedEOF, p.index⟩
  else ⟨(p.buf.drop i).take c, none, endi⟩

/-- `(*Buffer).DecodeRawBytes`: a varint byte count (with inlined 1- and
2-byte fast cases) followed by that many raw bytes. The
`uint64(c) != c64` guard protects 32-bit platforms and cannot fire on the
64-bit model. -/
def DecodeRawBytesGo (p : Buffer) : BytesOut :=
  let i := p.index
  let n := p.buf.length
  if i ≥ n then ⟨[], some .unexpectedEOF, p.index⟩ else
  let c := byteAt p.buf i
  let i := i + 1
  if c < 0x80 then rawBytesTail p i c
  else if i < n ∧ byteAt p.buf i < 0x80 then
    rawBytesTail p (i + 1) (andNot c 0x80 + (byteAt p.buf i <<< 7))
  else
    let r := DecodeVarintGo p
    match r.err with
    | some e => ⟨[], some e, r.index⟩
    | none =>
      if r.x % 2 ^ 64 ≠ r.x then ⟨[], some .badLength, r.index⟩
      else rawBytesTail p r.index r.x

/-- The loop of `SkipVarint`: scan to the first byte with the top bit
clear. The cursor moves only on success. -/
def skipVarintLoop (buf : List Nat) (i0 i : Nat) : Option PErr × Nat :=
  if _h : i < buf.length then
    if byteAt buf i < 0x80 then (none, i + 1)
    else skipVarintLoop buf i0 (i + 1)
  else (some .unexpectedEOF, i0)
termination_by buf.length - i

/-- `(*Buffer).SkipVarint`. -/
def SkipVarintGo (p : Buffer) : Option PErr × Nat :=
  skipVarintLoop p.buf p.index p.index

/-- `(*Buffer).SkipFixed`: skip `n` bytes. The `uint64(nb) != n` and
`i < p.index` guards protect 32-bit platforms and unsigned wraparound and
cannot fire on the `Nat` model. -/
def SkipFixedGo (p : Buffer) (n : Nat) : Option PErr × Nat :=
  if n % 2 ^ 64 ≠ n then (some .badLength, p.index)
  else
    let i := p.index + n
    if i < p.index ∨ i > p.buf.length then (some .unexpectedEOF, p.index)
    else (none, i)

/-- `(*Buffer).SkipRawBytes`: identical control flow to `DecodeRawBytes`
without materializing the payload. -/
def SkipRawBytesGo (p : Buffer) : Option PErr × Nat :=
  let i := p.index
  let n := p.buf.length
  if i ≥ n then (some .unexpectedEOF, p.index) else
  let c := byteAt p.buf i
  let i := i + 1
  if c < 0x80 then
    let endi := i + c
    if endi < i ∨ endi > n then (some .unexpectedEOF, p.index) else (none, endi)
  else if i < n ∧ byteAt p.buf i < 0x80 then
    let c := andNot c 0x80 + (byteAt p.buf i <<< 7)
    let i := i + 1
    let endi := i + c
    if endi < i ∨ endi > n then (some .unexpectedEOF, p.index) else (none, endi)
  else
    let r := DecodeVarintGo p
    match r.err with
    | some e => (some e, r.index)
    | none =>
      if r.x % 2 ^ 64 ≠ r.x then (some .badLength, r.index)
      else
        let endi := r.index + r.x
        if endi < r.index ∨ endi > n then (some .unexpectedEOF, p.index) else (none, endi)

/-- `(*Buffer).skip`: skip the next item according to its wire type.
Wire types: 0 varint, 1 fixed-64, 2 length-delimited, 5 fixed-32; anything
else is fatal. -/
def skipGo (o : Buffer) (wire : Nat) : Option PErr × Nat :=
  match wire with
  | 0 => SkipVarintGo o
  | 2 => SkipRawBytesGo o
  | 1 => SkipFixedGo o 8
  | 5 => SkipFixedGo o 4
  | _ => (some .unknownWireType, o.index)

/-- Element kinds of the record fields modelled for the decode driver:
a varint `int64` scalar (`dec_int64`), a repeated string
(`dec_slice_string`) and a packed repeated `int64`
(`dec_slice_packed_int64`). -/
inductive FKind
  | scalarInt64
  | sliceString
  | packedInt64
  deriving DecidableEq, Repr

/-- The wire type expected by each field kind (`p.WireType`). -/
def wireOf : FKind → Nat
  | .scalarInt64 => 0
  | .sliceString => 2
  | .packedInt64 => 2

/-- One compiled `Properties` entry as the decode driver sees it: the field
number (`p.Tag`), the element kind selecting the decoder, and whether a
decoder was installed (`p.dec != nil`; plans produced by `GetProperties`
always have one). -/
structure PlanField where
  Tag : Nat
  kind : FKind
  hasDec : Bool
  deriving DecidableEq, Repr

instance : Inhabited PlanField := ⟨⟨0, .scalarInt64, false⟩⟩

/-- The in-memory value of one record field. -/
inductive FieldVal
  | scalarV (v : Nat)
  | strsV (vs : List (List Nat))
  | natsV (vs : List Nat)
  deriving DecidableEq, Repr

instance : Inhabited FieldVal := ⟨.scalarV 0⟩

/-- The record state matches the plan: one value slot per property, of the
kind the property decodes into. -/
def WellTyped (props : List PlanField) (vals : List FieldVal) : Prop :=
  vals.length = props.length ∧
    ∀ i, i < props.length →
      match (props.getD i default).kind, vals.getD i default with
      | .scalarInt64, .scalarV _ => True
      | .sliceString, .strsV _ => True
      | .packedInt64, .natsV _ => True
      | _, _ => False

/-- Dispatch to the field's decoder (`p.dec(o, p, base)`): `dec_int64`
overwrites the scalar, `dec_slice_string` appends one string,
`dec_slice_packed_int64` appends the packed block's values. -/
def decField (k : FKind) (o : Buffer) (fv : FieldVal) : Except PErr (Buffer × FieldVal) :=
  match k, fv with
  | .scalarInt64, .scalarV _ =>
    let r := DecodeVarintGo o
    match r.err with
    | some e => .error e
    | none => .ok (⟨o.buf, r.index⟩, .scalarV r.x)
  | .sliceString, .strsV vs =>
    let r := DecodeRawBytesGo o
    match r.err with
    | some e => .error e
    | none => .ok (⟨o.buf, r.index⟩, .strsV (vs ++ [r.bytes]))
  | .packedInt64, .natsV vs =>
    match dec_slice_packed_int64Go .varintD o vs with
    | .error e => .error e
    | .ok (o', vs') => .ok (o', .natsV vs')
  | _, _ => .error .typeMismatch

/-- The tag-reading head of the `unmarshal_struct` loop, with its 1- and
2-byte fast cases and the `tag <= 0` check of the general path. Returns
`(tag, wire, advanced buffer)`. -/
def readTagGo (o : Buffer) : Except PErr (Nat × Nat × Buffer) :=
  let start := o.index
  let b := byteAt o.buf start
  if b < 0x80 then .ok (b >>> 3, b &&& 7, ⟨o.buf, start + 1⟩)
  else if start + 1 < o.buf.length ∧ byteAt o.buf (start + 1) < 0x80 then
    let u := andNot b 0x80 + (byteAt o.buf (start + 1) <<< 7)
    .ok (u >>> 3, u &&& 7, ⟨o.buf, start + 2⟩)
  else
    let r := DecodeVarintGo o
    match r.err with
    | some e => .error e
    | none =>
      if r.x >>> 3 = 0 then .error .illegalTag
      else .ok (r.x >>> 3, r.x &&& 7, ⟨o.buf, r.index⟩)

/-- The incremental property search's per-call loop:
`for ; pidx < len(prop.props); pidx++ { q := &prop.props[pidx];
if q.Tag >= uint32(tag) { if q.Tag == uint32(tag) { p = q }; break } }`.
Returns the final `pidx` together with the matched property index. -/
def searchLoop (props : List PlanField) (pidx tag : Nat) : Nat × Option Nat :=
  if _h : pidx < props.length then
    let q := props.getD pidx default
    if q.Tag ≥ tag % 2 ^ 32 then
      (pidx, if q.Tag = tag % 2 ^ 32 then some pidx else none)
    else searchLoop props (pidx + 1) tag
  else (pidx, none)
termination_by props.length - pidx

/-- The search state the driver threads between iterations: the remembered
index, the previous tag (−1 initially) and the previously matched
property. -/
structure SearchSt where
  pidx : Nat
  ptag : Int
  found : Option Nat
  deriving DecidableEq, Repr

def initSearch : SearchSt := ⟨0, -1, none⟩

/-- The `if tag != ptag { ... }` block: rewind to the start of the plan when
the incoming tag decreased, search forward, remember the result; reuse the
previous result when the tag repeats. -/
def searchStep (props : List PlanField) (st : SearchSt) (tag : Nat) : SearchSt :=
  if (tag : Int) ≠ st.ptag then
    let start := if (tag : Int) < st.ptag then 0 else st.pidx
    let r := searchLoop props start tag
    ⟨r.1, (tag : Int), r.2⟩
  else st

/-- One iteration of the `unmarshal_struct` loop after the tag has been
read: search, skip or check the wire type, and dispatch to the decoder.
Returns the new buffer, record state and search state, or the fatal
error. -/
def unmarshalStep (props : List PlanField) (o : Buffer) (vals : List FieldVal)
    (srch : SearchSt) (tag wire : Nat) : Except PErr (Buffer × List FieldVal × SearchSt) :=
  let srch' := searchStep props srch tag
  match srch'.found with
  | none =>
    match skipGo o wire with
    | (some e, _) => .error e
    | (none, i') => .ok (⟨o.buf, i'⟩, vals, srch')
  | some pi =>
    let q := props.getD pi default
    if q.hasDec = false then
      -- `if p.dec == nil { ...; continue }`: the value bytes are not consumed
      .ok (o, vals, srch')
    else if wire ≠ wireOf q.kind then .error .badWireType
    else
      match decField q.kind o (vals.getD pi default) with
      | .error e => .error e
      | .ok (o', fv') => .ok (o', vals.set pi fv', srch')

/-- The `unmarshal_struct` driver loop: read tags while input remains and
dispatch each one. The fuel argument is an artifact of the embedding; any
fuel at least the remaining byte count makes it behave as the source loop,
because each iteration consumes at least the tag byte. -/
def unmarshal_structGo (props : List PlanField) :
    Nat → Buffer → List FieldVal → SearchSt → Except PErr (Buffer × List FieldVal)
  | 0, o, vals, _ =>
    if o.index < o.buf.length then .error .fuelExhausted else .ok (o, vals)
  | fuel + 1, o, vals, srch =>
    if o.index < o.buf.length then
      match readTagGo o with
      | .error e => .error e
      | .ok (tag, wire, o') =>
        match unmarshalStep props o' vals srch tag wire with
        | .error e => .error e
        | .ok (o'', vals', srch') => unmarshal_structGo props fuel o'' vals' srch'
    else .ok (o, vals)

/-! ## Correctness of the incremental property search (C8) -/

/-- The plan is sorted by strictly increasing field number (the invariant
`GetProperties` establishes). -/
def planSorted (props : List PlanField) : Prop :=
  props.Pairwise (fun a b => a.Tag < b.Tag)

/-- Basic positional facts about one `searchLoop` call, valid for any
start: the loop stops at the first property from `start` whose tag is at
least the probe, and reports a match exactly when that property's tag
equals the probe. -/
lemma searchLoop_pos (props : List PlanField) (t : Nat) :
    ∀ start, start ≤ props.length →
      (searchLoop props start t).1 ≤ props.length ∧
      start ≤ (searchLoop props start t).1 ∧
      (∀ j, start ≤ j → j < (searchLoop props start t).1 →
        (props.getD j default).Tag < t % 2 ^ 32) ∧
      ((searchLoop props start t).1 < props.length →
        t % 2 ^ 32 ≤ (props.getD (searchLoop props start t).1 default).Tag) ∧
      (searchLoop props start t).2 =
        (if (searchLoop props start t).1 < props.length ∧
            (props.getD (searchLoop props start t).1 default).Tag = t % 2 ^ 32
         then some (searchLoop props start t).1 else none) := by
  intro start hstart
  by_cases hlt : start < props.length
  · by_cases hge : (props.getD start default).Tag ≥ t % 2 ^ 32
    · have hres : searchLoop props start t =
          (start, if (props.getD start default).Tag = t % 2 ^ 32 then some start else none) := by
        rw [searchLoop, dif_pos hlt, if_pos hge]
      rw [hres]
      refine ⟨by omega, le_refl _, fun j h1 h2 => by omega, fun _ => hge, ?_⟩
      by_cases heq : (props.getD start default).Tag = t % 2 ^ 32
      · rw [if_pos heq, if_pos ⟨hlt, heq⟩]
      · rw [if_neg heq, if_neg (by rintro ⟨-, h⟩; exact heq h)]
    · have hres : searchLoop props start t = searchLoop props (start + 1) t := by
        rw [searchLoop, dif_pos hlt, if_neg hge]
      obtain ⟨ih1, ih2, ih3, ih4, ih5⟩ := searchLoop_pos props t (start + 1) (by omega)
      rw [hres]
      refine ⟨ih1, by omega, fun j h1 h2 => ?_, ih4, ih5⟩
      rcases Nat.eq_or_lt_of_le h1 with he | hgt
      · rw [← he]
        omega
      · exact ih3 j (by omega) h2
  · have hres : searchLoop props start t = (start, none) := by
      rw [searchLoop, dif_neg hlt]
    rw [hres]
    refine ⟨by omega, le_refl _, fun j h1 h2 => by omega, fun h => by omega, ?_⟩
    rw [if_neg (by rintro ⟨h, -⟩; omega)]
termination_by start => props.length - start

/-- Starting the search anywhere before the first candidate gives the same
result as starting from the beginning of the plan. -/
lemma searchLoop_start_agnostic (props : List PlanField) (t : Nat) (start : Nat)
    (hstart : start ≤ props.length)
    (hpre : ∀ j, j < start → (props.getD j default).Tag < t % 2 ^ 32) :
    searchLoop props start t = searchLoop props 0 t := by
  obtain ⟨a1, a2, a3, a4, a5⟩ := searchLoop_pos props t start hstart
  obtain ⟨b1, b2, b3, b4, b5⟩ := searchLoop_pos props t 0 (by omega)
  have hidx : (searchLoop props start t).1 = (searchLoop props 0 t).1 := by
    rcases Nat.lt_trichotomy (searchLoop props start t).1 (searchLoop props 0 t).1 with h | h | h
    · have hlen : (searchLoop props start t).1 < props.length := by omega
      have h4 := a4 hlen
      have h3 := b3 (searchLoop props start t).1 (by omega) h
      omega
    · exact h
    · have hlen : (searchLoop props 0 t).1 < props.length := by omega
      have h4 := b4 hlen
      by_cases hge : start ≤ (searchLoop props 0 t).1
      · have h3 := a3 (searchLoop props 0 t).1 hge h
        omega
      · have h3 := hpre (searchLoop props 0 t).1 (by omega)
        omega
  have hfound : (searchLoop props start t).2 = (searchLoop props 0 t).2 := by
    rw [a5, b5, hidx]
  calc searchLoop props start t = ((searchLoop props start t).1, (searchLoop props start t).2) :=
        rfl
    _ = ((searchLoop props 0 t).1, (searchLoop props 0 t).2) := by rw [hidx, hfound]
    _ = searchLoop props 0 t := rfl

/-- The invariant the driver's search state maintains: either untouched, or
it remembers the outcome of a full search for the previous tag. -/
def searchInvariant (props : List PlanField) (st : SearchSt) : Prop :=
  st = initSearch ∨
    ∃ t0 : Nat, t0 < 2 ^ 32 ∧ st.ptag = (t0 : Int) ∧ st.pidx ≤ props.length ∧
      (∀ j, j < st.pidx → (props.getD j default).Tag < t0) ∧
      st.pidx = (searchLoop props 0 t0).1 ∧
      st.found = (searchLoop props 0 t0).2

lemma searchStep_correct (props : List PlanField) (u : Nat) (hu : u < 2 ^ 32)
    (st : SearchSt) (hinv : searchInvariant props st) :
    searchInvariant props (searchStep props st u) ∧
      (searchStep props st u).found = (searchLoop props 0 u).2 := by
  have hmod : u % 2 ^ 32 = u := Nat.mod_eq_of_lt hu
  rcases hinv with hin | ⟨t0, ht0, he, hle, hpre, hpi, hfo⟩
  · subst hin
    have hne : (u : Int) ≠ (initSearch).ptag := by
      show (u : Int) ≠ -1
      omega
    have hres : searchStep props initSearch u =
        ⟨(searchLoop props ((if (u : Int) < (-1 : Int) then 0 else 0)) u).1, (u : Int),
          (searchLoop props ((if (u : Int) < (-1 : Int) then 0 else 0)) u).2⟩ := by
      rw [searchStep, if_pos hne]
      rcases h : decide ((u : Int) < (-1 : Int)) <;> simp [searchStep, initSearch]
    have hz : (if (u : Int) < (-1 : Int) then 0 else 0) = 0 := by
      rw [if_neg (by omega)]
    rw [hz] at hres
    obtain ⟨a1, a2, a3, a4, a5⟩ := searchLoop_pos props u 0 (by omega)
    refine ⟨Or.inr ⟨u, hu, by rw [hres], by rw [hres]; exact a1, ?_, by rw [hres], by rw [hres]⟩,
      by rw [hres]⟩
    intro j hj
    rw [hres] at hj
    have := a3 j (by omega) hj
    omega
  · by_cases heq : (u : Int) = st.ptag
    · have hstep : searchStep props st u = st := by
        rw [searchStep, if_neg (by rw [heq]; exact fun h => h rfl)]
      have ht0u : t0 = u := by
        rw [he] at heq
        omega
      rw [hstep]
      exact ⟨Or.inr ⟨t0, ht0, he, hle, hpre, hpi, hfo⟩, by rw [hfo, ht0u]⟩
    · have hstep : searchStep props st u =
          ⟨(searchLoop props (if (u : Int) < st.ptag then 0 else st.pidx) u).1, (u : Int),
            (searchLoop props (if (u : Int) < st.ptag then 0 else st.pidx) u).2⟩ := by
        rw [searchStep, if_pos heq]
      by_cases hdec : (u : Int) < st.ptag
      · rw [if_pos hdec] at hstep
        obtain ⟨a1, a2, a3, a4, a5⟩ := searchLoop_pos props u 0 (by omega)
        refine ⟨Or.inr ⟨u, hu, by rw [hstep], by rw [hstep]; exact a1, ?_, by rw [hstep],
          by rw [hstep]⟩, by rw [hstep]⟩
        intro j hj
        rw [hstep] at hj
        have := a3 j (by omega) hj
        omega
      · rw [if_neg hdec] at hstep
        have hgt : t0 < u := by
          rw [he] at heq hdec
          omega
        have hag : searchLoop props st.pidx u = searchLoop props 0 u := by
          apply searchLoop_start_agnostic props u st.pidx hle
          intro j hj
          have := hpre j hj
          omega
        rw [hag] at hstep
        obtain ⟨a1, a2, a3, a4, a5⟩ := searchLoop_pos props u 0 (by omega)
        refine ⟨Or.inr ⟨u, hu, by rw [hstep], by rw [hstep]; exact a1, ?_, by rw [hstep],
          by rw [hstep]⟩, by rw [hstep]⟩
        intro j hj
        rw [hstep] at hj
        have := a3 j (by omega) hj
        omega

lemma searchInvariant_foldl (props : List PlanField) (tags : List Nat)
    (htags : ∀ u ∈ tags, u < 2 ^ 32) :
    ∀ st, searchInvariant props st →
      searchInvariant props (tags.foldl (searchStep props) st) := by
  induction tags with
  | nil => intro st h; exact h
  | cons u rest ih =>
    intro st h
    rw [List.foldl_cons]
    exact ih (fun v hv => htags v (List.mem_cons_of_mem u hv)) _
      (searchStep_correct props u (htags u (List.mem_cons_self u rest)) st h).1

/-- C8: the decoder's incremental search — walking forward from the index
remembered from the previous lookup and restarting from the start of the
plan whenever the incoming field number drops — selects the Property whose
field number equals the incoming one exactly when such a Property exists,
the same result as a full scan from the start of the sorted plan. -/
theorem incremental_search_correct (props : List PlanField) (hs : planSorted props)
    (tags : List Nat) (htags : ∀ u ∈ tags, u < 2 ^ 32) (t : Nat) (ht : t < 2 ^ 32) :
    (searchStep props (tags.foldl (searchStep props) initSearch) t).found
        = (searchLoop props 0 t).2 ∧
    (∀ i, (searchLoop props 0 t).2 = some i →
        i < props.length ∧ (props.getD i default).Tag = t) ∧
    (∀ i, i < props.length → (props.getD i default).Tag = t →
        (searchLoop props 0 t).2 = some i) := by
  have hmod : t % 2 ^ 32 = t := Nat.mod_eq_of_lt ht
  have hinv := searchInvariant_foldl props tags htags initSearch (Or.inl rfl)
  obtain ⟨a1, a2, a3, a4, a5⟩ := searchLoop_pos props t 0 (by omega)
  refine ⟨(searchStep_correct props t ht _ hinv).2, fun i hi => ?_, fun i hilen htag => ?_⟩
  · rw [a5] at hi
    by_cases hc : (searchLoop props 0 t).1 < props.length ∧
        (props.getD (searchLoop props 0 t).1 default).Tag = t % 2 ^ 32
    · rw [if_pos hc] at hi
      cases hi
      exact ⟨hc.1, by rw [hc.2, hmod]⟩
    · rw [if_neg hc] at hi
      cases hi
  · have hpair : ∀ a b, a < b → b < props.length →
        (props.getD a default).Tag < (props.getD b default).Tag := by
      intro a b hab hblen
      have ha : a < props.length := by omega
      rw [List.getD_eq_getElem _ _ ha, List.getD_eq_getElem _ _ hblen]
      exact List.pairwise_iff_getElem.mp hs a b ha hblen hab
    have hieq : (searchLoop props 0 t).1 = i := by
      rcases Nat.lt_trichotomy (searchLoop props 0 t).1 i with h | h | h
      · have h4 := a4 (by omega)
        have := hpair _ _ h hilen
        omega
      · exact h
      · have := a3 i (by omega) h
        omega
    rw [a5, hieq, if_pos ⟨hilen, by omega⟩]

/-- Witness for C8 on a concrete sorted two-entry plan probed with a
descending tag sequence followed by a fresh lookup. -/
theorem incremental_search_correct_witness :
    planSorted [⟨1, .scalarInt64, true⟩, ⟨3, .sliceString, true⟩] ∧
    (∀ u ∈ ([3, 1] : List Nat), u < 2 ^ 32) ∧ (3 : Nat) < 2 ^ 32 ∧
    ((searchStep [⟨1, .scalarInt64, true⟩, ⟨3, .sliceString, true⟩]
        (([3, 1] : List Nat).foldl
          (searchStep [⟨1, .scalarInt64, true⟩, ⟨3, .sliceString, true⟩]) initSearch) 3).found
      = (searchLoop [⟨1, .scalarInt64, true⟩, ⟨3, .sliceString, true⟩] 0 3).2 ∧
    (∀ i, (searchLoop [⟨1, .scalarInt64, true⟩, ⟨3, .sliceString, true⟩] 0 3).2 = some i →
        i < ([⟨1, .scalarInt64, true⟩, ⟨3, .sliceString, true⟩] : List PlanField).length ∧
        (([⟨1, .scalarInt64, true⟩,
            ⟨3, .sliceString, true⟩] : List PlanField).getD i default).Tag = 3) ∧
    (∀ i, i < ([⟨1, .scalarInt64, true⟩, ⟨3, .sliceString, true⟩] : List PlanField).length →
        (([⟨1, .scalarInt64, true⟩,
            ⟨3, .sliceString, true⟩] : List PlanField).getD i default).Tag = 3 →
        (searchLoop [⟨1, .scalarInt64, true⟩, ⟨3, .sliceString, true⟩] 0 3).2 = some i)) :=
  ⟨by show List.Pairwise _ _; decide, by decide, by decide,
   incremental_search_correct [⟨1, .scalarInt64, true⟩, ⟨3, .sliceString, true⟩]
     (by show List.Pairwise _ _; decide) [3, 1] (by decide) 3 (by decide)⟩

/-! ## Tag dispatch: unknown tags, unknown wire types, wrong wire types (C4) -/

/-- `skip` hits the `default:` arm for any wire type other than 0, 1, 2, 5. -/
lemma skipGo_unknown (o : Buffer) (wire : Nat) (h0 : wire ≠ 0) (h1 : wire ≠ 1)
    (h2 : wire ≠ 2) (h5 : wire ≠ 5) :
    skipGo o wire = (some .unknownWireType, o.index) := by
  match wire, h0, h1, h2, h5 with
  | 3, _, _, _, _ => rfl
  | 4, _, _, _, _ => rfl
  | n + 6, _, _, _, _ => rfl
  | 0, h, _, _, _ => exact absurd rfl h
  | 1, _, h, _, _ => exact absurd rfl h
  | 2, _, _, h, _ => exact absurd rfl h
  | 5, _, _, _, h => exact absurd rfl h

/-- C4: in the `unmarshal_struct` loop, for every incoming tag on a sorted
plan whose properties all have decoders: a field number matching no
Property is dispatched to `skip` on the incoming wire type, continuing
without error when the skip succeeds; a wire type other than varint (0),
fixed-64 (1), length-delimited (2) or fixed-32 (5) is a fatal error; and a
field number matching a Property whose expected wire type differs from the
incoming one is the fatal `ErrBadWireType`. -/
theorem unknown_tag_and_wiretype_dispatch (props : List PlanField) (hs : planSorted props)
    (o : Buffer) (vals : List FieldVal) (srch : SearchSt)
    (hinv : searchInvariant props srch) (tag wire : Nat) (ht : tag < 2 ^ 32)
    (hdec : ∀ q ∈ props, q.hasDec = true) :
    ((∀ i, i < props.length → (props.getD i default).Tag ≠ tag) →
      unmarshalStep props o vals srch tag wire =
        match skipGo o wire with
        | (some e, _) => .error e
        | (none, i') => .ok (⟨o.buf, i'⟩, vals, searchStep props srch tag)) ∧
    ((wire ≠ 0 ∧ wire ≠ 1 ∧ wire ≠ 2 ∧ wire ≠ 5) →
      ∃ e, unmarshalStep props o vals srch tag wire = .error e) ∧
    (∀ i, i < props.length → (props.getD i default).Tag = tag →
      wire ≠ wireOf (props.getD i default).kind →
      unmarshalStep props o vals srch tag wire = .error .badWireType) := by
  have hmod : tag % 2 ^ 32 = tag := Nat.mod_eq_of_lt ht
  have hfound := (searchStep_correct props tag ht srch hinv).2
  obtain ⟨a1, a2, a3, a4, a5⟩ := searchLoop_pos props tag 0 (Nat.zero_le _)
  have hunf : unmarshalStep props o vals srch tag wire =
      (match (searchStep props srch tag).found with
       | none => match skipGo o wire with
         | (some e, _) => .error e
         | (none, i') => .ok (⟨o.buf, i'⟩, vals, searchStep props srch tag)
       | some pi =>
         if (props.getD pi default).hasDec = false then
           .ok (o, vals, searchStep props srch tag)
         else if wire ≠ wireOf (props.getD pi default).kind then .error .badWireType
         else match decField (props.getD pi default).kind o (vals.getD pi default) with
           | .error e => .error e
           | .ok (o', fv') => .ok (o', vals.set pi fv', searchStep props srch tag)) := by
    rw [unmarshalStep]
  have hsound : ∀ i, (searchLoop props 0 tag).2 = some i →
      i < props.length ∧ (props.getD i default).Tag = tag := by
    intro i hi
    rw [a5] at hi
    by_cases hc : (searchLoop props 0 tag).1 < props.length ∧
        (props.getD (searchLoop props 0 tag).1 default).Tag = tag % 2 ^ 32
    · rw [if_pos hc] at hi
      cases hi
      exact ⟨hc.1, by rw [hc.2, hmod]⟩
    · rw [if_neg hc] at hi
      cases hi
  refine ⟨fun hnone => ?_, fun hw => ?_, fun i hilen htag hbad => ?_⟩
  · have hf : (searchStep props srch tag).found = none := by
      rcases hcase : (searchStep props srch tag).found with - | pi
      · rfl
      · rw [hcase] at hfound
        obtain ⟨h1, h2⟩ := hsound pi hfound.symm
        exact absurd h2 (hnone pi h1)
    rw [hunf, hf]
  · rcases hcase : (searchStep props srch tag).found with - | pi
    · refine ⟨.unknownWireType, ?_⟩
      rw [hunf, hcase, skipGo_unknown o wire hw.1 hw.2.1 hw.2.2.1 hw.2.2.2]
    · rw [hcase] at hfound
      obtain ⟨hpl, -⟩ := hsound pi hfound.symm
      have hdq : (props.getD pi default).hasDec = true := by
        apply hdec
        rw [List.getD_eq_getElem _ _ hpl]
        exact List.getElem_mem _
      have hbadw : wire ≠ wireOf (props.getD pi default).kind := by
        rcases (props.getD pi default).kind with - | - | -
        · exact hw.1
        · exact hw.2.2.1
        · exact hw.2.2.1
      refine ⟨.badWireType, ?_⟩
      simp only [hunf, hcase]
      rw [if_neg (by rw [hdq]; decide), if_pos hbadw]
  · have hpair : ∀ a b, a < b → b < props.length →
        (props.getD a default).Tag < (props.getD b default).Tag := by
      intro a b hab hblen
      have ha : a < props.length := by omega
      rw [List.getD_eq_getElem _ _ ha, List.getD_eq_getElem _ _ hblen]
      exact List.pairwise_iff_getElem.mp hs a b ha hblen hab
    have hieq : (searchLoop props 0 tag).1 = i := by
      rcases Nat.lt_trichotomy (searchLoop props 0 tag).1 i with h | h | h
      · have h4 := a4 (by omega)
        have := hpair _ _ h hilen
        omega
      · exact h
      · have := a3 i (Nat.zero_le i) h
        omega
    have hf : (searchStep props srch tag).found = some i := by
      rw [hfound, a5, hieq, if_pos ⟨hilen, by omega⟩]
    have hdq : (props.getD i default).hasDec = true := by
      apply hdec
      rw [List.getD_eq_getElem _ _ hilen]
      exact List.getElem_mem _
    simp only [hunf, hf]
    rw [if_neg (by rw [hdq]; decide), if_pos hbad]

/-- Witness for C4 on a one-entry plan, probing an unknown field number (2)
with an unknown wire type (3) from a fresh search state. -/
theorem unknown_tag_and_wiretype_dispatch_witness :
    planSorted [⟨1, .scalarInt64, true⟩] ∧
    searchInvariant [⟨1, .scalarInt64, true⟩] initSearch ∧
    (2 : Nat) < 2 ^ 32 ∧
    (∀ q ∈ ([⟨1, .scalarInt64, true⟩] : List PlanField), q.hasDec = true) ∧
    (((∀ i, i < ([⟨1, .scalarInt64, true⟩] : List PlanField).length →
        (([⟨1, .scalarInt64, true⟩] : List PlanField).getD i default).Tag ≠ 2) →
      unmarshalStep [⟨1, .scalarInt64, true⟩] ⟨[0x08], 0⟩ [.scalarV 0] initSearch 2 3 =
        match skipGo ⟨[0x08], 0⟩ 3 with
        | (some e, _) => .error e
        | (none, i') => .ok (⟨[0x08], i'⟩, [.scalarV 0],
            searchStep [⟨1, .scalarInt64, true⟩] initSearch 2)) ∧
    (((3 : Nat) ≠ 0 ∧ (3 : Nat) ≠ 1 ∧ (3 : Nat) ≠ 2 ∧ (3 : Nat) ≠ 5) →
      ∃ e, unmarshalStep [⟨1, .scalarInt64, true⟩] ⟨[0x08], 0⟩ [.scalarV 0] initSearch 2 3
        = .error e) ∧
    (∀ i, i < ([⟨1, .scalarInt64, true⟩] : List PlanField).length →
      (([⟨1, .scalarInt64, true⟩] : List PlanField).getD i default).Tag = 2 →
      (3 : Nat) ≠ wireOf (([⟨1, .scalarInt64, true⟩] : List PlanField).getD i default).kind →
      unmarshalStep [⟨1, .scalarInt64, true⟩] ⟨[0x08], 0⟩ [.scalarV 0] initSearch 2 3
        = .error .badWireType)) :=
  ⟨by show List.Pairwise _ _; decide, Or.inl rfl, by decide, by decide,
   unknown_tag_and_wiretype_dispatch [⟨1, .scalarInt64, true⟩]
     (by show List.Pairwise _ _; decide) ⟨[0x08], 0⟩ [.scalarV 0] initSearch (Or.inl rfl)
     2 3 (by decide) (by decide)⟩

/-! ## Buffer.Unmarshal entry checks (C10) -/

/-- The shapes a `Message` argument of `(*Buffer).Unmarshal` can take, as
the function's reflection dispatch distinguishes them: the nil interface,
a type implementing `unmarshaler` (whose custom `UnmarshalProtobuf3`
returns the attached result), a pointer to a struct with its compiled
plan and field values, a non-pointer, and a pointer to a non-struct. -/
inductive GoMessage
  | nilMsg
  | selfUnmarshaler (res : Option PErr)
  | ptrToStruct (props : List PlanField) (vals : List FieldVal)
  | nonPtr
  | ptrToNonStruct

/-- `(*Buffer).Unmarshal`: nil yields `ErrNil`; a self-unmarshaler handles
the remaining bytes itself and the cursor jumps to the end of the buffer;
a non-pointer or pointer to non-struct yields `ErrNotPointerToStruct`;
otherwise the struct decode loop runs. Returns the error result with the
buffer and message after the call. (On the struct decode's own error paths
the source can leave partial writes behind; the model returns the pre-call
state there, and no theorem below inspects that branch.) -/
def BufferUnmarshal (p : Buffer) (fuel : Nat) : GoMessage → Option PErr × Buffer × GoMessage
  | .nilMsg => (some .errNil, p, .nilMsg)
  | .selfUnmarshaler res => (res, ⟨p.buf, p.buf.length⟩, .selfUnmarshaler res)
  | .nonPtr => (some .errNotPointerToStruct, p, .nonPtr)
  | .ptrToNonStruct => (some .errNotPointerToStruct, p, .ptrToNonStruct)
  | .ptrToStruct props vals =>
    match unmarshal_structGo props fuel p vals initSearch with
    | .error e => (some e, p, .ptrToStruct props vals)
    | .ok (o', vals') => (none, o', .ptrToStruct props vals')

/-- C10: `Buffer.Unmarshal` returns `ErrNil` on a nil message and
`ErrNotPointerToStruct` on a message that is neither a pointer nor a
pointer to a struct (and does not unmarshal itself); in all three cases
the destination record and the read cursor are returned unchanged. -/
theorem unmarshal_entry_checks (p : Buffer) (fuel : Nat) :
    BufferUnmarshal p fuel .nilMsg = (some .errNil, p, .nilMsg) ∧
    BufferUnmarshal p fuel .nonPtr = (some .errNotPointerToStruct, p, .nonPtr) ∧
    BufferUnmarshal p fuel .ptrToNonStruct
      = (some .errNotPointerToStruct, p, .ptrToNonStruct) :=
  ⟨rfl, rfl, rfl⟩

/-! ## Merge semantics of decoding (C3) -/

/-- Relation between two decoding runs over the same bytes from record
states `a` and `b`: each scalar field was either overwritten identically
in both runs or left untouched in both, and each sequence field had the
same decoded values appended in both runs. -/
def StateRel (props : List PlanField) (a b a' b' : List FieldVal) : Prop :=
  a'.length = a.length ∧ b'.length = b.length ∧
  ∀ i, i < props.length →
    match (props.getD i default).kind with
    | .scalarInt64 =>
        (a'.getD i default = b'.getD i default) ∨
        (a'.getD i default = a.getD i default ∧ b'.getD i default = b.getD i default)
    | .sliceString =>
        ∃ l va vb, a.getD i default = .strsV va ∧ a'.getD i default = .strsV (va ++ l) ∧
          b.getD i default = .strsV vb ∧ b'.getD i default = .strsV (vb ++ l)
    | .packedInt64 =>
        ∃ l va vb, a.getD i default = .natsV va ∧ a'.getD i default = .natsV (va ++ l) ∧
          b.getD i default = .natsV vb ∧ b'.getD i default = .natsV (vb ++ l)

lemma stateRel_refl (props : List PlanField) (a b : List FieldVal)
    (ha : WellTyped props a) (hb : WellTyped props b) : StateRel props a b a b := by
  refine ⟨rfl, rfl, fun i hi => ?_⟩
  have h1 := ha.2 i hi
  have h2 := hb.2 i hi
  rcases hk : (props.getD i default).kind with - | - | -
  · rw [hk] at h1 h2
    exact Or.inr ⟨rfl, rfl⟩
  · rw [hk] at h1 h2
    rcases hv1 : a.getD i default with v | va | na <;> rw [hv1] at h1 <;> try exact h1.elim
    rcases hv2 : b.getD i default with v | vb | nb <;> rw [hv2] at h2 <;> try exact h2.elim
    exact ⟨[], va, vb, rfl, by simp, rfl, by simp⟩
  · rw [hk] at h1 h2
    rcases hv1 : a.getD i default with v | va | na <;> rw [hv1] at h1 <;> try exact h1.elim
    rcases hv2 : b.getD i default with v | vb | nb <;> rw [hv2] at h2 <;> try exact h2.elim
    exact ⟨[], na, nb, rfl, by simp, rfl, by simp⟩

lemma stateRel_trans (props : List PlanField) (a b a1 b1 a2 b2 : List FieldVal)
    (h1 : StateRel props a b a1 b1) (h2 : StateRel props a1 b1 a2 b2) :
    StateRel props a b a2 b2 := by
  obtain ⟨l1a, l1b, h1⟩ := h1
  obtain ⟨l2a, l2b, h2⟩ := h2
  refine ⟨by omega, by omega, fun i hi => ?_⟩
  have g1 := h1 i hi
  have g2 := h2 i hi
  rcases hk : (props.getD i default).kind with - | - | - <;> rw [hk] at g1 g2
  · rcases g2 with g2 | ⟨g2a, g2b⟩
    · exact Or.inl g2
    · rcases g1 with g1 | ⟨g1a, g1b⟩
      · exact Or.inl (by rw [g2a, g2b, g1])
      · exact Or.inr ⟨by rw [g2a, g1a], by rw [g2b, g1b]⟩
  · obtain ⟨l, va, vb, e1, e2, e3, e4⟩ := g1
    obtain ⟨l', va', vb', f1, f2, f3, f4⟩ := g2
    rw [e2] at f1
    rw [e4] at f3
    cases f1
    cases f3
    exact ⟨l ++ l', va, vb, e1, by rw [f2, List.append_assoc], e3, by rw [f4, List.append_assoc]⟩
  · obtain ⟨l, va, vb, e1, e2, e3, e4⟩ := g1
    obtain ⟨l', va', vb', f1, f2, f3, f4⟩ := g2
    rw [e2] at f1
    rw [e4] at f3
    cases f1
    cases f3
    exact ⟨l ++ l', va, vb, e1, by rw [f2, List.append_assoc], e3, by rw [f4, List.append_assoc]⟩

/-- The packed extraction loop appends a buffer-determined list: its control
flow and the values it appends do not depend on the accumulator. -/
lemma packedLoop_shift (vd : ValDec) (fin : Nat) :
    ∀ fuel o y1 y2,
      (∃ e, packedLoop vd fin fuel o y1 = .error e ∧ packedLoop vd fin fuel o y2 = .error e) ∨
      (∃ o' us, packedLoop vd fin fuel o y1 = .ok (o', y1 ++ us) ∧
        packedLoop vd fin fuel o y2 = .ok (o', y2 ++ us)) := by
  intro fuel
  induction fuel with
  | zero =>
    intro o y1 y2
    by_cases h : o.index < fin
    · exact Or.inl ⟨.fuelExhausted, by rw [packedLoop, if_pos h], by rw [packedLoop, if_pos h]⟩
    · exact Or.inr ⟨o, [], by rw [packedLoop, if_neg h]; simp, by rw [packedLoop, if_neg h]; simp⟩
  | succ fuel ih =>
    intro o y1 y2
    by_cases h : o.index < fin
    · have hstep : ∀ y, packedLoop vd fin (fuel + 1) o y =
          (match (valDecRun vd o).err with
           | some e => .error e
           | none => packedLoop vd fin fuel ⟨o.buf, (valDecRun vd o).index⟩
               (y ++ [(valDecRun vd o).x])) := by
        intro y
        rw [packedLoop, if_pos h]
      rcases he : (valDecRun vd o).err with - | e
      · rcases ih ⟨o.buf, (valDecRun vd o).index⟩ (y1 ++ [(valDecRun vd o).x])
          (y2 ++ [(valDecRun vd o).x]) with ⟨e, e1, e2⟩ | ⟨o', us, e1, e2⟩
        · refine Or.inl ⟨e, ?_, ?_⟩
          · rw [hstep, he]
            exact e1
          · rw [hstep, he]
            exact e2
        · refine Or.inr ⟨o', (valDecRun vd o).x :: us, ?_, ?_⟩
          · rw [hstep, he]
            exact e1.trans (by simp)
          · rw [hstep, he]
            exact e2.trans (by simp)
      · refine Or.inl ⟨e, ?_, ?_⟩
        · rw [hstep, he]
        · rw [hstep, he]
    · exact Or.inr ⟨o, [], by rw [packedLoop, if_neg h]; simp, by rw [packedLoop, if_neg h]; simp⟩

lemma getD_set_self {α : Type} {l : List α} {i : Nat} (h : i < l.length) (v d : α) :
    (l.set i v).getD i d = v := by
  rw [List.getD_eq_getElem?_getD, List.getElem?_set_self (by omega)]
  rfl

lemma getD_set_ne {α : Type} {l : List α} {i j : Nat} (h : i ≠ j) (v d : α) :
    (l.set i v).getD j d = l.getD j d := by
  rw [List.getD_eq_getElem?_getD, List.getElem?_set_ne h, ← List.getD_eq_getElem?_getD]

/-- The kind-respecting description of one decoder invocation's effect on a
single field of two record states. -/
def FieldWrite (k : FKind) (old1 old2 fv1 fv2 : FieldVal) : Prop :=
  match k with
  | .scalarInt64 => fv1 = fv2 ∧ (∃ v, fv1 = .scalarV v)
  | .sliceString => ∃ l va vb, old1 = .strsV va ∧ fv1 = .strsV (va ++ l) ∧
      old2 = .strsV vb ∧ fv2 = .strsV (vb ++ l)
  | .packedInt64 => ∃ l va vb, old1 = .natsV va ∧ fv1 = .natsV (va ++ l) ∧
      old2 = .natsV vb ∧ fv2 = .natsV (vb ++ l)

lemma wellTyped_set (props : List PlanField) (vals : List FieldVal)
    (h : WellTyped props vals) (pi : Nat) (hpi : pi < props.length) (fv : FieldVal)
    (hfv : match (props.getD pi default).kind, fv with
      | .scalarInt64, .scalarV _ => True
      | .sliceString, .strsV _ => True
      | .packedInt64, .natsV _ => True
      | _, _ => False) :
    WellTyped props (vals.set pi fv) := by
  obtain ⟨hlen, htyped⟩ := h
  refine ⟨by rw [List.length_set]; exact hlen, fun i hi => ?_⟩
  by_cases he : pi = i
  · subst he
    rw [getD_set_self (by omega) fv default]
    exact hfv
  · rw [getD_set_ne he fv default]
    exact htyped i hi

lemma stateRel_set (props : List PlanField) (vals1 vals2 : List FieldVal)
    (h1 : WellTyped props vals1) (h2 : WellTyped props vals2)
    (pi : Nat) (hpi : pi < props.length) (fv1 fv2 : FieldVal)
    (hw : FieldWrite (props.getD pi default).kind (vals1.getD pi default)
      (vals2.getD pi default) fv1 fv2) :
    StateRel props vals1 vals2 (vals1.set pi fv1) (vals2.set pi fv2) := by
  refine ⟨List.length_set vals1 pi fv1, List.length_set vals2 pi fv2, fun i hi => ?_⟩
  by_cases he : pi = i
  · subst he
    have l1 : pi < vals1.length := by rw [h1.1]; exact hpi
    have l2 : pi < vals2.length := by rw [h2.1]; exact hpi
    rw [getD_set_self l1 fv1 default, getD_set_self l2 fv2 default]
    rcases hk : (props.getD pi default).kind with - | - | - <;> rw [hk] at hw <;>
      rw [FieldWrite] at hw
    · exact Or.inl hw.1
    · exact hw
    · exact hw
  · rw [getD_set_ne he fv1 default, getD_set_ne he fv2 default]
    have g1 := h1.2 i hi
    have g2 := h2.2 i hi
    rcases hk : (props.getD i default).kind with - | - | - <;> rw [hk] at g1 g2
    · exact Or.inr ⟨rfl, rfl⟩
    · rcases hv1 : vals1.getD i default with v | va | na <;> rw [hv1] at g1 <;> try exact g1.elim
      rcases hv2 : vals2.getD i default with v | vb | nb <;> rw [hv2] at g2 <;> try exact g2.elim
      exact ⟨[], va, vb, rfl, by simp, rfl, by simp⟩
    · rcases hv1 : vals1.getD i default with v | va | na <;> rw [hv1] at g1 <;> try exact g1.elim
      rcases hv2 : vals2.getD i default with v | vb | nb <;> rw [hv2] at g2 <;> try exact g2.elim
      exact ⟨[], na, nb, rfl, by simp, rfl, by simp⟩

/-- `dec_slice_packed_int64` appends a buffer-determined value list. -/
lemma dec_packed_rel (vd : ValDec) (o : Buffer) (v1 v2 : List Nat) :
    (∃ e, dec_slice_packed_int64Go vd o v1 = .error e ∧
          dec_slice_packed_int64Go vd o v2 = .error e) ∨
    (∃ o' us, dec_slice_packed_int64Go vd o v1 = .ok (o', v1 ++ us) ∧
        dec_slice_packed_int64Go vd o v2 = .ok (o', v2 ++ us)) := by
  have hunf : ∀ v, dec_slice_packed_int64Go vd o v =
      (match (DecodeVarintGo o).err with
       | some e => .error e
       | none =>
         if (DecodeVarintGo o).index + (DecodeVarintGo o).x < (DecodeVarintGo o).index
         then .error .overflow
         else packedLoop vd ((DecodeVarintGo o).index + (DecodeVarintGo o).x)
           ((DecodeVarintGo o).x + 1) ⟨o.buf, (DecodeVarintGo o).index⟩ v) := by
    intro v
    rw [dec_slice_packed_int64Go]
  rcases he : (DecodeVarintGo o).err with - | e
  · rcases packedLoop_shift vd ((DecodeVarintGo o).index + (DecodeVarintGo o).x)
      ((DecodeVarintGo o).x + 1) ⟨o.buf, (DecodeVarintGo o).index⟩ v1 v2 with
      ⟨e, e1, e2⟩ | ⟨o', us, e1, e2⟩
    · refine Or.inl ⟨e, ?_, ?_⟩ <;> rw [hunf, he] <;> rw [if_neg (by omega)] <;> assumption
    · refine Or.inr ⟨o', us, ?_, ?_⟩ <;> rw [hunf, he] <;> rw [if_neg (by omega)] <;> assumption
  · refine Or.inl ⟨e, ?_, ?_⟩ <;> rw [hunf, he]

/-- One driver iteration behaves identically on two record states: same
control flow, same bytes consumed, and kind-respecting related writes. -/
lemma unmarshalStep_rel (props : List PlanField) (o : Buffer)
    (vals1 vals2 : List FieldVal) (srch : SearchSt) (tag wire : Nat)
    (h1 : WellTyped props vals1) (h2 : WellTyped props vals2) :
    (∃ e, unmarshalStep props o vals1 srch tag wire = .error e ∧
          unmarshalStep props o vals2 srch tag wire = .error e) ∨
    (∃ o' v1' v2' srch', unmarshalStep props o vals1 srch tag wire = .ok (o', v1', srch') ∧
        unmarshalStep props o vals2 srch tag wire = .ok (o', v2', srch') ∧
        StateRel props vals1 vals2 v1' v2' ∧
        WellTyped props v1' ∧ WellTyped props v2') := by
  have hunf : ∀ vals, unmarshalStep props o vals srch tag wire =
      (match (searchStep props srch tag).found with
       | none =>
         match skipGo o wire with
         | (some e, _) => .error e
         | (none, i') => .ok (⟨o.buf, i'⟩, vals, searchStep props srch tag)
       | some pi =>
         if (props.getD pi default).hasDec = false then
           .ok (o, vals, searchStep props srch tag)
         else if wire ≠ wireOf (props.getD pi default).kind then .error .badWireType
         else
           match decField (props.getD pi default).kind o (vals.getD pi default) with
           | .error e => .error e
           | .ok (o', fv') => .ok (o', vals.set pi fv', searchStep props srch tag)) := by
    intro vals
    rw [unmarshalStep]
  rcases hf : (searchStep props srch tag).found with - | pi
  · rcases hsk : skipGo o wire with ⟨- | e, i'⟩
    · exact Or.inr ⟨⟨o.buf, i'⟩, vals1, vals2, searchStep props srch tag,
        by rw [hunf, hf, hsk], by rw [hunf, hf, hsk], stateRel_refl props vals1 vals2 h1 h2,
        h1, h2⟩
    · exact Or.inl ⟨e, by rw [hunf, hf, hsk], by rw [hunf, hf, hsk]⟩
  · by_cases hd : (props.getD pi default).hasDec = false
    · exact Or.inr ⟨o, vals1, vals2, searchStep props srch tag,
        by simp only [hunf, hf]; rw [if_pos hd], by simp only [hunf, hf]; rw [if_pos hd],
        stateRel_refl props vals1 vals2 h1 h2, h1, h2⟩
    · have hpi : pi < props.length := by
        by_contra hc
        rw [List.getD_eq_default _ _ (by omega)] at hd
        exact hd rfl
      by_cases hwire : wire ≠ wireOf (props.getD pi default).kind
      · exact Or.inl ⟨.badWireType,
          by simp only [hunf, hf]; rw [if_neg hd, if_pos hwire],
          by simp only [hunf, hf]; rw [if_neg hd, if_pos hwire]⟩
      · have ht1 := h1.2 pi hpi
        have ht2 := h2.2 pi hpi
        rcases hk : (props.getD pi default).kind with - | - | - <;> rw [hk] at ht1 ht2
        · -- dec_int64
          rcases hv1 : vals1.getD pi default with v1 | sx1 | nx1 <;> rw [hv1] at ht1 <;>
            try exact ht1.elim
          rcases hv2 : vals2.getD pi default with v2 | sx2 | nx2 <;> rw [hv2] at ht2 <;>
            try exact ht2.elim
          have hdec : ∀ v, decField FKind.scalarInt64 o (FieldVal.scalarV v) =
              (match (DecodeVarintGo o).err with
               | some e => .error e
               | none => .ok (⟨o.buf, (DecodeVarintGo o).index⟩, .scalarV (DecodeVarintGo o).x)) := by
            intro v
            rw [decField]
          rcases he : (DecodeVarintGo o).err with - | e
          · refine Or.inr ⟨⟨o.buf, (DecodeVarintGo o).index⟩,
              vals1.set pi (.scalarV (DecodeVarintGo o).x),
              vals2.set pi (.scalarV (DecodeVarintGo o).x), searchStep props srch tag,
              ?_, ?_, ?_, ?_, ?_⟩
            · simp only [hunf, hf]; rw [if_neg hd, if_neg hwire, hk, hv1, hdec, he]
            · simp only [hunf, hf]; rw [if_neg hd, if_neg hwire, hk, hv2, hdec, he]
            · exact stateRel_set props vals1 vals2 h1 h2 pi hpi _ _
                (by rw [hk, FieldWrite]; exact ⟨rfl, _, rfl⟩)
            · exact wellTyped_set props vals1 h1 pi hpi _ (by rw [hk]; trivial)
            · exact wellTyped_set props vals2 h2 pi hpi _ (by rw [hk]; trivial)
          · refine Or.inl ⟨e, ?_, ?_⟩
            · simp only [hunf, hf]; rw [if_neg hd, if_neg hwire, hk, hv1, hdec, he]
            · simp only [hunf, hf]; rw [if_neg hd, if_neg hwire, hk, hv2, hdec, he]
        · -- dec_slice_string
          rcases hv1 : vals1.getD pi default with vx1 | s1 | nx1 <;> rw [hv1] at ht1 <;>
            try exact ht1.elim
          rcases hv2 : vals2.getD pi default with vx2 | s2 | nx2 <;> rw [hv2] at ht2 <;>
            try exact ht2.elim
          have hdec : ∀ vs, decField FKind.sliceString o (FieldVal.strsV vs) =
              (match (DecodeRawBytesGo o).err with
               | some e => .error e
               | none => .ok (⟨o.buf, (DecodeRawBytesGo o).index⟩,
                   .strsV (vs ++ [(DecodeRawBytesGo o).bytes]))) := by
            intro vs
            rw [decField]
          rcases he : (DecodeRawBytesGo o).err with - | e
          · refine Or.inr ⟨⟨o.buf, (DecodeRawBytesGo o).index⟩,
              vals1.set pi (.strsV (s1 ++ [(DecodeRawBytesGo o).bytes])),
              vals2.set pi (.strsV (s2 ++ [(DecodeRawBytesGo o).bytes])),
              searchStep props srch tag, ?_, ?_, ?_, ?_, ?_⟩
            · simp only [hunf, hf]; rw [if_neg hd, if_neg hwire, hk, hv1, hdec, he]
            · simp only [hunf, hf]; rw [if_neg hd, if_neg hwire, hk, hv2, hdec, he]
            · exact stateRel_set props vals1 vals2 h1 h2 pi hpi _ _
                (by
                  rw [hk, FieldWrite]
                  exact ⟨[(DecodeRawBytesGo o).bytes], s1, s2, hv1, rfl, hv2, rfl⟩)
            · exact wellTyped_set props vals1 h1 pi hpi _ (by rw [hk]; trivial)
            · exact wellTyped_set props vals2 h2 pi hpi _ (by rw [hk]; trivial)
          · refine Or.inl ⟨e, ?_, ?_⟩
            · simp only [hunf, hf]; rw [if_neg hd, if_neg hwire, hk, hv1, hdec, he]
            · simp only [hunf, hf]; rw [if_neg hd, if_neg hwire, hk, hv2, hdec, he]
        · -- dec_slice_packed_int64
          rcases hv1 : vals1.getD pi default with vx1 | sx1 | n1 <;> rw [hv1] at ht1 <;>
            try exact ht1.elim
          rcases hv2 : vals2.getD pi default with vx2 | sx2 | n2 <;> rw [hv2] at ht2 <;>
            try exact ht2.elim
          have hdec : ∀ ns, decField FKind.packedInt64 o (FieldVal.natsV ns) =
              (match dec_slice_packed_int64Go .varintD o ns with
               | .error e => .error e
               | .ok (o', vs') => .ok (o', .natsV vs')) := by
            intro ns
            rw [decField]
          rcases dec_packed_rel .varintD o n1 n2 with ⟨e, e1, e2⟩ | ⟨o', us, e1, e2⟩
          · refine Or.inl ⟨e, ?_, ?_⟩
            · simp only [hunf, hf]; rw [if_neg hd, if_neg hwire, hk, hv1, hdec, e1]
            · simp only [hunf, hf]; rw [if_neg hd, if_neg hwire, hk, hv2, hdec, e2]
          · refine Or.inr ⟨o', vals1.set pi (.natsV (n1 ++ us)), vals2.set pi (.natsV (n2 ++ us)),
              searchStep props srch tag, ?_, ?_, ?_, ?_, ?_⟩
            · simp only [hunf, hf]; rw [if_neg hd, if_neg hwire, hk, hv1, hdec, e1]
            · simp only [hunf, hf]; rw [if_neg hd, if_neg hwire, hk, hv2, hdec, e2]
            · exact stateRel_set props vals1 vals2 h1 h2 pi hpi _ _
                (by
                  rw [hk, FieldWrite]
                  exact ⟨us, n1, n2, hv1, rfl, hv2, rfl⟩)
            · exact wellTyped_set props vals1 h1 pi hpi _ (by rw [hk]; trivial)
            · exact wellTyped_set props vals2 h2 pi hpi _ (by rw [hk]; trivial)

/-- Running the whole decode loop on two record states from the same bytes:
identical control flow and errors, and kind-respecting related results. -/
lemma run_pair (props : List PlanField) :
    ∀ (fuel : Nat) (o : Buffer) (vals1 vals2 : List FieldVal) (srch : SearchSt),
      WellTyped props vals1 → WellTyped props vals2 →
      (∃ e, unmarshal_structGo props fuel o vals1 srch = .error e ∧
            unmarshal_structGo props fuel o vals2 srch = .error e) ∨
      (∃ o' v1' v2', unmarshal_structGo props fuel o vals1 srch = .ok (o', v1') ∧
          unmarshal_structGo props fuel o vals2 srch = .ok (o', v2') ∧
          StateRel props vals1 vals2 v1' v2' ∧ WellTyped props v1' ∧ WellTyped props v2') := by
  intro fuel
  induction fuel with
  | zero =>
    intro o vals1 vals2 srch h1 h2
    by_cases h : o.index < o.buf.length
    · exact Or.inl ⟨.fuelExhausted, by rw [unmarshal_structGo, if_pos h],
        by rw [unmarshal_structGo, if_pos h]⟩
    · exact Or.inr ⟨o, vals1, vals2, by rw [unmarshal_structGo, if_neg h],
        by rw [unmarshal_structGo, if_neg h], stateRel_refl props vals1 vals2 h1 h2, h1, h2⟩
  | succ fuel ih =>
    intro o vals1 vals2 srch h1 h2
    by_cases h : o.index < o.buf.length
    · have hunf : ∀ vals, unmarshal_structGo props (fuel + 1) o vals srch =
          (match readTagGo o with
           | .error e => .error e
           | .ok (tag, wire, o') =>
             match unmarshalStep props o' vals srch tag wire with
             | .error e => .error e
             | .ok (o'', vals', srch') => unmarshal_structGo props fuel o'' vals' srch') := by
        intro vals
        rw [unmarshal_structGo, if_pos h]
      rcases hrt : readTagGo o with e | ⟨tag, wire, o'⟩
      · exact Or.inl ⟨e, by rw [hunf, hrt], by rw [hunf, hrt]⟩
      · rcases unmarshalStep_rel props o' vals1 vals2 srch tag wire h1 h2 with
          ⟨e, e1, e2⟩ | ⟨o'', v1', v2', srch', e1, e2, hrel, hw1, hw2⟩
        · exact Or.inl ⟨e, by simp only [hunf, hrt]; rw [e1], by simp only [hunf, hrt]; rw [e2]⟩
        · rcases ih o'' v1' v2' srch' hw1 hw2 with ⟨e, f1, f2⟩ | ⟨oF, w1, w2, f1, f2, hrel2, g1, g2⟩
          · exact Or.inl ⟨e, by simp only [hunf, hrt]; rw [e1]; exact f1,
              by simp only [hunf, hrt]; rw [e2]; exact f2⟩
          · exact Or.inr ⟨oF, w1, w2, by simp only [hunf, hrt]; rw [e1]; exact f1,
              by simp only [hunf, hrt]; rw [e2]; exact f2,
              stateRel_trans props vals1 vals2 v1' v2' w1 w2 hrel hrel2, g1, g2⟩
    · exact Or.inr ⟨o, vals1, vals2, by rw [unmarshal_structGo, if_neg h],
        by rw [unmarshal_structGo, if_neg h], stateRel_refl props vals1 vals2 h1 h2, h1, h2⟩

/-- C3: decoding the same input bytes twice into the same destination
(merge semantics of `unmarshal_struct` with `dec_int64`, `dec_slice_string`
and `dec_slice_packed_int64`): when the first decode succeeds, the second
decode also succeeds, consumes the same bytes, leaves every sequence
(repeated) field doubled — the decoded values appended twice in order —
and every scalar field equal to the value written by the last decode. -/
theorem decode_twice_merge (props : List PlanField) (fuel : Nat) (buf : List Nat)
    (vals0 vals1 : List FieldVal) (o1 : Buffer)
    (h0 : WellTyped props vals0)
    (h1 : unmarshal_structGo props fuel ⟨buf, 0⟩ vals0 initSearch = .ok (o1, vals1)) :
    ∃ vals2, unmarshal_structGo props fuel ⟨buf, 0⟩ vals1 initSearch = .ok (o1, vals2) ∧
      ∀ i, i < props.length →
        match (props.getD i default).kind with
        | .scalarInt64 => vals2.getD i default = vals1.getD i default
        | .sliceString => ∃ va l, vals0.getD i default = .strsV va ∧
            vals1.getD i default = .strsV (va ++ l) ∧
            vals2.getD i default = .strsV (va ++ l ++ l)
        | .packedInt64 => ∃ va l, vals0.getD i default = .natsV va ∧
            vals1.getD i default = .natsV (va ++ l) ∧
            vals2.getD i default = .natsV (va ++ l ++ l) := by
  have hw1 : WellTyped props vals1 := by
    rcases run_pair props fuel ⟨buf, 0⟩ vals0 vals0 initSearch h0 h0 with
      ⟨e, f1, f2⟩ | ⟨o', v1', v2', f1, f2, hrel, g1, g2⟩
    · rw [h1] at f1
      exact absurd f1 (by simp)
    · rw [h1] at f1
      simp only [Except.ok.injEq, Prod.mk.injEq] at f1
      obtain ⟨ho, hv⟩ := f1
      rwa [← hv] at g1
  rcases run_pair props fuel ⟨buf, 0⟩ vals0 vals1 initSearch h0 hw1 with
    ⟨e, f1, f2⟩ | ⟨o', v1', v2', f1, f2, hrel, g1, g2⟩
  · rw [h1] at f1
    exact absurd f1 (by simp)
  · rw [h1] at f1
    simp only [Except.ok.injEq, Prod.mk.injEq] at f1
    obtain ⟨ho, hv⟩ := f1
    subst ho
    subst hv
    refine ⟨v2', f2, fun i hi => ?_⟩
    have hr := hrel.2.2 i hi
    rcases hk : (props.getD i default).kind with - | - | - <;> rw [hk] at hr
    · rcases hr with hr | ⟨ha, hb⟩
      · exact hr.symm
      · exact hb
    · obtain ⟨l, va, vb, ha, ha', hb, hb'⟩ := hr
      rw [ha'] at hb
      injection hb with hvb
      exact ⟨va, l, ha, ha', by rw [hb', ← hvb]⟩
    · obtain ⟨l, va, vb, ha, ha', hb, hb'⟩ := hr
      rw [ha'] at hb
      injection hb with hvb
      exact ⟨va, l, ha, ha', by rw [hb', ← hvb]⟩


/-- Witness for C3: a concrete two-field record (varint scalar field 1 and
repeated string field 2) with a concrete five-byte encoding, decoded twice:
the scalar keeps the last decoded value and the string slice is doubled. -/
theorem decode_twice_merge_witness :
    WellTyped [⟨1, .scalarInt64, true⟩, ⟨2, .sliceString, true⟩] [.scalarV 0, .strsV []] ∧
    unmarshal_structGo [⟨1, .scalarInt64, true⟩, ⟨2, .sliceString, true⟩] 2
        ⟨[0x08, 0x05, 0x12, 0x01, 0x61], 0⟩ [.scalarV 0, .strsV []] initSearch
      = .ok (⟨[0x08, 0x05, 0x12, 0x01, 0x61], 5⟩, [.scalarV 5, .strsV [[0x61]]]) ∧
    (∃ vals2, unmarshal_structGo [⟨1, .scalarInt64, true⟩, ⟨2, .sliceString, true⟩] 2
          ⟨[0x08, 0x05, 0x12, 0x01, 0x61], 0⟩ [.scalarV 5, .strsV [[0x61]]] initSearch
        = .ok (⟨[0x08, 0x05, 0x12, 0x01, 0x61], 5⟩, vals2) ∧
      ∀ i, i < ([⟨1, .scalarInt64, true⟩, ⟨2, .sliceString, true⟩] : List PlanField).length →
        match (([⟨1, .scalarInt64, true⟩,
            ⟨2, .sliceString, true⟩] : List PlanField).getD i default).kind with
        | .scalarInt64 => vals2.getD i default
            = ([.scalarV 5, .strsV [[0x61]]] : List FieldVal).getD i default
        | .sliceString => ∃ va l,
            ([.scalarV 0, .strsV []] : List FieldVal).getD i default = .strsV va ∧
            ([.scalarV 5, .strsV [[0x61]]] : List FieldVal).getD i default = .strsV (va ++ l) ∧
            vals2.getD i default = .strsV (va ++ l ++ l)
        | .packedInt64 => ∃ va l,
            ([.scalarV 0, .strsV []] : List FieldVal).getD i default = .natsV va ∧
            ([.scalarV 5, .strsV [[0x61]]] : List FieldVal).getD i default = .natsV (va ++ l) ∧
            vals2.getD i default = .natsV (va ++ l ++ l)) := by
  have h0 : WellTyped [⟨1, .scalarInt64, true⟩, ⟨2, .sliceString, true⟩]
      [.scalarV 0, .strsV []] := by
    refine ⟨rfl, fun i hi => ?_⟩
    norm_num [List.length_cons] at hi
    interval_cases i <;> trivial
  have h1 : unmarshal_structGo [⟨1, .scalarInt64, true⟩, ⟨2, .sliceString, true⟩] 2
      ⟨[0x08, 0x05, 0x12, 0x01, 0x61], 0⟩ [.scalarV 0, .strsV []] initSearch
      = .ok (⟨[0x08, 0x05, 0x12, 0x01, 0x61], 5⟩, [.scalarV 5, .strsV [[0x61]]]) := by
    have hsl1 : searchLoop [⟨1, .scalarInt64, true⟩, ⟨2, .sliceString, true⟩] 0 1
        = (0, some 0) := by
      rw [searchLoop]
      decide
    have hsl2 : searchLoop [⟨1, .scalarInt64, true⟩, ⟨2, .sliceString, true⟩] 0 2
        = (1, some 1) := by
      rw [searchLoop, searchLoop]
      decide
    have hss1 : searchStep [⟨1, .scalarInt64, true⟩, ⟨2, .sliceString, true⟩] initSearch 1
        = ⟨0, 1, some 0⟩ := by
      rw [searchStep, if_pos (by decide)]
      show (⟨(searchLoop [⟨1, .scalarInt64, true⟩, ⟨2, .sliceString, true⟩] 0 1).1, 1,
        (searchLoop [⟨1, .scalarInt64, true⟩, ⟨2, .sliceString, true⟩] 0 1).2⟩ : SearchSt)
        = ⟨0, 1, some 0⟩
      rw [hsl1]
    have hss2 : searchStep [⟨1, .scalarInt64, true⟩, ⟨2, .sliceString, true⟩] ⟨0, 1, some 0⟩ 2
        = ⟨1, 2, some 1⟩ := by
      rw [searchStep, if_pos (by decide)]
      show (⟨(searchLoop [⟨1, .scalarInt64, true⟩, ⟨2, .sliceString, true⟩] 0 2).1, 2,
        (searchLoop [⟨1, .scalarInt64, true⟩, ⟨2, .sliceString, true⟩] 0 2).2⟩ : SearchSt)
        = ⟨1, 2, some 1⟩
      rw [hsl2]
    have hus1 : unmarshalStep [⟨1, .scalarInt64, true⟩, ⟨2, .sliceString, true⟩]
        ⟨[0x08, 0x05, 0x12, 0x01, 0x61], 1⟩ [.scalarV 0, .strsV []] initSearch 1 0
        = .ok (⟨[0x08, 0x05, 0x12, 0x01, 0x61], 2⟩, [.scalarV 5, .strsV []],
            ⟨0, 1, some 0⟩) := by
      rw [unmarshalStep]
      simp only [hss1]
      rfl
    have hus2 : unmarshalStep [⟨1, .scalarInt64, true⟩, ⟨2, .sliceString, true⟩]
        ⟨[0x08, 0x05, 0x12, 0x01, 0x61], 3⟩ [.scalarV 5, .strsV []] ⟨0, 1, some 0⟩ 2 2
        = .ok (⟨[0x08, 0x05, 0x12, 0x01, 0x61], 5⟩, [.scalarV 5, .strsV [[0x61]]],
            ⟨1, 2, some 1⟩) := by
      rw [unmarshalStep]
      simp only [hss2]
      rfl
    have hrt1 : readTagGo ⟨[0x08, 0x05, 0x12, 0x01, 0x61], 0⟩
        = .ok (1, 0, ⟨[0x08, 0x05, 0x12, 0x01, 0x61], 1⟩) := rfl
    have hrt2 : readTagGo ⟨[0x08, 0x05, 0x12, 0x01, 0x61], 2⟩
        = .ok (2, 2, ⟨[0x08, 0x05, 0x12, 0x01, 0x61], 3⟩) := rfl
    rw [unmarshal_structGo, if_pos (by norm_num)]
    simp only [hrt1]
    simp only [hus1]
    rw [unmarshal_structGo, if_pos (by norm_num)]
    simp only [hrt2]
    simp only [hus2]
    rw [unmarshal_structGo, if_neg (by norm_num)]
  exact ⟨h0, h1, decode_twice_merge [⟨1, .scalarInt64, true⟩, ⟨2, .sliceString, true⟩] 2
    [0x08, 0x05, 0x12, 0x01, 0x61] [.scalarV 0, .strsV []] [.scalarV 5, .strsV [[0x61]]]
    ⟨[0x08, 0x05, 0x12, 0x01, 0x61], 5⟩ h0 h1⟩

/-! ## Property-table construction: `getPropertiesLocked`, `Parse`,
`parseReserved` and the map branch of `setEncAndDec` (C5, C7, C9) -/

/-- The distinct error returns of the property-table build. -/
inductive PropsErr
  | invalidReservedTag
  | reservedOutOfRange
  | tooFewFields
  | badWireName
  | invalidTagId
  | tagOutOfRange
  | noEncDec
  | duplicateTag
  | reservedTagUsed
  | mapWireNotBytes
  | missingKeyTag
  | keyTagSkip
  | keyTagNot1
  | missingValTag
  | valTagSkip
  | valTagNot2
  deriving DecidableEq, Repr

/-- `strings.Split(s, ",")` on the character list of a tag string. -/
def splitOnComma : List Char → List (List Char)
  | [] => [[]]
  | c :: cs =>
    if c = ',' then [] :: splitOnComma cs
    else match splitOnComma cs with
      | [] => [[c]]
      | g :: gs => (c :: g) :: gs

/-- The digit scan of `strconv.Atoi`: base-10 digits only, at least one. -/
def parseDigits : List Char → Nat → Option Nat
  | [], acc => some acc
  | c :: cs, acc =>
    if c.isDigit then parseDigits cs (acc * 10 + (c.toNat - 48)) else none

/-- `strconv.Atoi`: optional sign, then base-10 digits; errors on an empty
or malformed string and on 64-bit signed overflow. -/
def atoi (s : List Char) : Option Int :=
  match s with
  | [] => none
  | c :: cs =>
    if c = '+' then
      match cs, parseDigits cs 0 with
      | _ :: _, some n => if n ≤ 2 ^ 63 - 1 then some (n : Int) else none
      | _, _ => none
    else if c = '-' then
      match cs, parseDigits cs 0 with
      | _ :: _, some n => if n ≤ 2 ^ 63 then some (-(n : Int)) else none
      | _, _ => none
    else
      match parseDigits s 0 with
      | some n => if n ≤ 2 ^ 63 - 1 then some (n : Int) else none
      | none => none

/-- The loop of `(*StructProperties).parseReserved`: each comma-separated
token is `Atoi`'d, values `<= 0` are rejected, accepted values are
appended as `uint32`s. -/
def parseReservedLoop (acc : List Nat) : List (List Char) → Except PropsErr (List Nat)
  | [] => .ok acc
  | s :: rest =>
    match atoi s with
    | none => .error .invalidReservedTag
    | some tag =>
      if tag ≤ 0 then .error .reservedOutOfRange
      else parseReservedLoop (acc ++ [tag.toNat % 2 ^ 32]) rest

def parseReservedGo (reserved : List Nat) (tag : List Char) : Except PropsErr (List Nat) :=
  parseReservedLoop reserved (splitOnComma tag)

/-- What `(*Properties).Parse` extracts from a tag string: the wire type
constant (`WireVarint` 0, `WireFixed64` 1, `WireBytes` 2, `WireFixed32`
5), the field number, and the `optional` flag. -/
structure ParsedProps where
  WireType : Nat
  Tag : Nat
  isOptional : Bool
  deriving DecidableEq, Repr

/-- `(*Properties).Parse`: `"-"` marks a skipped field (`.ok none`); the
first comma-separated field selects the wire type; the second is the field
number, which `Atoi` must accept and which must be positive; the rest may
carry `optional`. -/
def ParseGo (s : List Char) : Except PropsErr (Option ParsedProps) :=
  let fields := splitOnComma s
  if fields.length < 2 then
    if 0 < fields.length ∧ fields.getD 0 [] = "-".data then .ok none
    else .error .tooFewFields
  else
    match
      (if fields.getD 0 [] = "varint".data then some 0
       else if fields.getD 0 [] = "fixed32".data then some 5
       else if fields.getD 0 [] = "fixed64".data then some 1
       else if fields.getD 0 [] = "zigzag32".data then some 0
       else if fields.getD 0 [] = "zigzag64".data then some 0
       else if fields.getD 0 [] = "bytes".data then some 2
       else none : Option Nat) with
    | none => .error .badWireName
    | some wt =>
      match atoi (fields.getD 1 []) with
      | none => .error .invalidTagId
      | some tag =>
        if tag ≤ 0 then .error .tagOutOfRange
        else .ok (some ⟨wt, tag.toNat % 2 ^ 32, (fields.drop 2).contains "optional".data⟩)

/-- One struct field as `getPropertiesLocked` dispatches on it: a
`protobuf3.Reserved` field carrying its tag string, or an ordinary field
carrying its tag string and whether `setEncAndDec` finds an
encoder/decoder pair for its Go type. (Fields embedded with the
`protobuf:"embedded"` tag recurse into another struct and are outside this
model.) -/
inductive FieldDesc
  | reservedF (tag : List Char)
  | normalF (tag : List Char) (hasCoder : Bool)

/-- The field loop of `getPropertiesLocked`, accumulating the parsed field
numbers and the reserved list. The `Bool` carried by an error records
whether the partially inserted `propertiesMap` cache entry for the type is
STILL PRESENT when the error is returned: the `parseReserved` error path
returns without `delete(propertiesMap, t)`, unlike every other error
path. -/
def fieldLoop : List FieldDesc → List Nat → List Nat →
    Except (PropsErr × Bool) (List Nat × List Nat)
  | [], props, reserved => .ok (props, reserved)
  | .reservedF tag :: rest, props, reserved =>
    match parseReservedGo reserved tag with
    | .error e => .error (e, true)
    | .ok reserved' => fieldLoop rest props reserved'
  | .normalF tag hasCoder :: rest, props, reserved =>
    match ParseGo tag with
    | .error e => .error (e, false)
    | .ok none => fieldLoop rest props reserved
    | .ok (some p) =>
      if hasCoder = false then .error (.noEncDec, false)
      else fieldLoop rest (props ++ [p.Tag]) reserved

/-- The post-sort sanity loop of `getPropertiesLocked`: walking the sorted
field numbers with `prev_tag` starting at 0, a repeat of the previous tag
is a duplicate error and a tag in the reserved set is a reserved error. -/
def checkTags (reserved : List Nat) : Nat → List Nat → Option PropsErr
  | _, [] => none
  | prev, t :: rest =>
    if prev = t then some .duplicateTag
    else if t ∈ reserved then some .reservedTagUsed
    else checkTags reserved t rest

/-- `getPropertiesLocked` after the cache probe: the entry for the type is
inserted up front, the fields are processed, the reserved list is
de-duplicated and sorted, the properties are sorted by field number, and
the sanity loop rejects duplicate or reserved field numbers. Returns the
sorted field numbers and reserved list, or the error paired with whether
the cache entry survived. -/
def getPropertiesLockedGo (fields : List FieldDesc) :
    Except (PropsErr × Bool) (List Nat × List Nat) :=
  match fieldLoop fields [] [] with
  | .error e => .error e
  | .ok (props, reserved) =>
    let props' := List.insertionSort (· ≤ ·) props
    match checkTags reserved 0 props' with
    | some e => .error (e, false)
    | none => .ok (props', List.insertionSort (· ≤ ·) reserved.dedup)

/-- The `reflect.Map` branch of `setEncAndDec`: the field's wire type must
be `bytes`, the `protobuf_key` and `protobuf_val` tags must be present,
must parse, must not be `"-"`, and must carry field numbers 1 and 2
respectively. -/
def mapFieldSetEncAndDec (wireType : Nat) (key_tag val_tag : List Char) :
    Except PropsErr (ParsedProps × ParsedProps) :=
  if wireType ≠ 2 then .error .mapWireNotBytes
  else if key_tag = [] then .error .missingKeyTag
  else match ParseGo key_tag with
    | .error e => .error e
    | .ok none => .error .keyTagSkip
    | .ok (some kp) =>
      if kp.Tag ≠ 1 then .error .keyTagNot1
      else if val_tag = [] then .error .missingValTag
      else match ParseGo val_tag with
        | .error e => .error e
        | .ok none => .error .valTagSkip
        | .ok (some vp) =>
          if vp.Tag ≠ 2 then .error .valTagNot2
          else .ok (kp, vp)

/-- C5 (refuted by the code): `getPropertiesLocked` is claimed to remove
the pre-inserted cache entry on every error path, but the error path for a
malformed `protobuf3.Reserved` field tag returns with the entry still in
the cache (`Bool` component `true`), unlike e.g. the tag-parse error path
of an ordinary field (`false`). -/
theorem reserved_error_keeps_cache_entry :
    getPropertiesLockedGo [.reservedF "x".data]
      = .error (.invalidReservedTag, true) ∧
    getPropertiesLockedGo [.normalF "x".data true]
      = .error (.tooFewFields, false) :=
  ⟨rfl, rfl⟩

lemma checkTags_spec (rsv : List Nat) :
    ∀ (l : List Nat) (prev : Nat), l.Sorted (· ≤ ·) → checkTags rsv prev l = none →
      (∀ h, l.head? = some h → prev ≠ h) ∧ l.Chain' (· < ·) ∧ ∀ t ∈ l, t ∉ rsv := by
  intro l
  induction l with
  | nil =>
    intro prev hsort hchk
    exact ⟨fun h hh => (by cases hh), List.chain'_nil,
      fun t ht => absurd ht (List.not_mem_nil t)⟩
  | cons t rest ih =>
    intro prev hsort hchk
    rw [checkTags] at hchk
    by_cases h1 : prev = t
    · rw [if_pos h1] at hchk
      cases hchk
    · rw [if_neg h1] at hchk
      by_cases h2 : t ∈ rsv
      · rw [if_pos h2] at hchk
        cases hchk
      · rw [if_neg h2] at hchk
        obtain ⟨hsorted1, hsorted2⟩ := List.sorted_cons.mp hsort
        obtain ⟨ihh, ihc, ihr⟩ := ih t hsorted2 hchk
        refine ⟨fun h hh => by cases hh; exact h1, ?_, ?_⟩
        · rw [List.chain'_cons']
          refine ⟨fun y hy => ?_, ihc⟩
          have hmem : y ∈ rest := List.mem_of_mem_head? hy
          have hle : t ≤ y := hsorted1 y hmem
          have hne : t ≠ y := ihh y hy
          omega
        · intro u hu
          rcases List.mem_cons.mp hu with he | hm
          · rw [he]
            exact h2
          · exact ihr u hm

/-- C7: every property table built without error has its field numbers
strictly increasing, and none of them is in its reserved list; a
duplicate field number or one equal to a reserved number is rejected by
the post-sort sanity loop. -/
theorem plan_sorted_reserved_disjoint (fields : List FieldDesc) (tags rsv : List Nat)
    (h : getPropertiesLockedGo fields = .ok (tags, rsv)) :
    tags.Chain' (· < ·) ∧ ∀ t ∈ tags, t ∉ rsv := by
  rw [getPropertiesLockedGo] at h
  rcases hfl : fieldLoop fields [] [] with e | ⟨props, reserved⟩
  · rw [hfl] at h
    cases h
  · simp only [hfl] at h
    rcases hchk : checkTags reserved 0 (List.insertionSort (· ≤ ·) props) with - | e
    · simp only [hchk, Except.ok.injEq, Prod.mk.injEq] at h
      obtain ⟨htags, hrsv⟩ := h
      obtain ⟨-, hc, hr⟩ := checkTags_spec reserved (List.insertionSort (· ≤ ·) props) 0
        (List.sorted_insertionSort _ _) hchk
      subst htags
      refine ⟨hc, fun t ht => ?_⟩
      have hnotin := hr t ht
      rw [← hrsv]
      intro hmem
      exact hnotin (List.mem_dedup.mp ((List.perm_insertionSort _ _).mem_iff.mp hmem))
    · simp only [hchk] at h
      cases h

/-- Witness for C7 on a concrete three-field struct: fields tagged 3 and
1 plus a `Reserved` field for id 2 build successfully into the sorted,
reserved-disjoint plan `[1, 3]` / `[2]`. -/
theorem plan_sorted_reserved_disjoint_witness :
    getPropertiesLockedGo [.normalF "varint,3".data true, .reservedF "2".data,
        .normalF "varint,1".data true] = .ok ([1, 3], [2]) ∧
    ([1, 3] : List Nat).Chain' (· < ·) ∧ ∀ t ∈ ([1, 3] : List Nat), t ∉ ([2] : List Nat) :=
  ⟨rfl, plan_sorted_reserved_disjoint [.normalF "varint,3".data true, .reservedF "2".data,
    .normalF "varint,1".data true] [1, 3] [2] rfl⟩

/-- C9: whenever the map branch of `setEncAndDec` succeeds, the
`protobuf_key` sub-plan carries field number 1 and the `protobuf_val`
sub-plan carries field number 2. -/
theorem map_key_val_tags (wireType : Nat) (key_tag val_tag : List Char)
    (kp vp : ParsedProps)
    (h : mapFieldSetEncAndDec wireType key_tag val_tag = .ok (kp, vp)) :
    kp.Tag = 1 ∧ vp.Tag = 2 := by
  rw [mapFieldSetEncAndDec] at h
  by_cases h1 : wireType ≠ 2
  · rw [if_pos h1] at h
    cases h
  · rw [if_neg h1] at h
    by_cases h2 : key_tag = []
    · rw [if_pos h2] at h
      cases h
    · rw [if_neg h2] at h
      rcases hk : ParseGo key_tag with e | - | kp0
      · simp only [hk] at h
        cases h
      · simp only [hk] at h
        cases h
      · simp only [hk] at h
        by_cases h3 : kp0.Tag ≠ 1
        · rw [if_pos h3] at h
          cases h
        · rw [if_neg h3] at h
          by_cases h4 : val_tag = []
          · rw [if_pos h4] at h
            cases h
          · rw [if_neg h4] at h
            rcases hv : ParseGo val_tag with e | - | vp0
            · simp only [hv] at h
              cases h
            · simp only [hv] at h
              cases h
            · simp only [hv] at h
              by_cases h5 : vp0.Tag ≠ 2
              · rw [if_pos h5] at h
                cases h
              · rw [if_neg h5] at h
                simp only [Except.ok.injEq, Prod.mk.injEq] at h
                obtain ⟨hkp, hvp⟩ := h
                subst hkp
                subst hvp
                exact ⟨by omega, by omega⟩

/-- Witness for C9 on the canonical map tags `varint,1` / `varint,2`. -/
theorem map_key_val_tags_witness :
    mapFieldSetEncAndDec 2 "varint,1".data "varint,2".data
      = .ok (⟨0, 1, false⟩, ⟨0, 2, false⟩) ∧
    (⟨0, 1, false⟩ : ParsedProps).Tag = 1 ∧ (⟨0, 2, false⟩ : ParsedProps).Tag = 2 :=
  ⟨rfl, map_key_val_tags 2 "varint,1".data "varint,2".data ⟨0, 1, false⟩ ⟨0, 2, false⟩ rfl⟩

end Protobuf3
